import Mathlib

/-!
Shallow embedding of the NCCL NET transport proxy engine
(`src/transport/net.cc`): the bank map offset encoding, the shared
buffer pool with reference counting, the connect-time memory
initialization, and the send/recv proxy progress state machines.
Machine integers are modelled as `Nat`/`Int`, with explicit `% 2 ^ w`
where a C conversion can wrap.
-/

namespace NcclNet

/-! ## Constants (from `net.cc` and the queue/step configuration) -/

def NCCL_STEPS : Nat := 8

def NCCL_SHARED_STEPS : Nat := 16

def NCCL_NET_MAP_HOSTMEM : Nat := 0

def NCCL_NET_MAP_DEVMEM : Nat := 1

def NCCL_NET_MAP_SHARED_HOSTMEM : Nat := 2

def NCCL_NET_MAP_SHARED_DEVMEM : Nat := 3

/-- `#define NCCL_NET_MAP_MASK_DEVMEM 0x40000000` -/
def NCCL_NET_MAP_MASK_DEVMEM : Nat := 0x40000000

/-- `#define NCCL_NET_MAP_MASK_SHARED 0x80000000` -/
def NCCL_NET_MAP_MASK_SHARED : Nat := 0x80000000

/-- `#define NCCL_NET_MAP_MASK_USED 0x20000000` -/
def NCCL_NET_MAP_MASK_USED : Nat := 0x20000000

/-- `#define NCCL_NET_MAP_MASK_OFFSET 0x1fffffff` -/
def NCCL_NET_MAP_MASK_OFFSET : Nat := 0x1fffffff

/-- `NCCL_NET_MAP_OFFSET_BANK`: the bank index of an offset word is its
top two bits, `offsetName >> 30`. -/
def NCCL_NET_MAP_OFFSET_BANK (w : Nat) : Nat := w >>> 30

/-- `NCCL_NET_MAP_OFFSET_NULL`: a slot is NULL when `offsetName >> 29 == 0`. -/
def NCCL_NET_MAP_OFFSET_NULL (w : Nat) : Bool := w >>> 29 == 0

/-- `NCCL_NET_MAP_DEV_MEM`: `(offsetName & NCCL_NET_MAP_MASK_DEVMEM) != 0`. -/
def NCCL_NET_MAP_DEV_MEM (w : Nat) : Bool := (w &&& NCCL_NET_MAP_MASK_DEVMEM) != 0

/-- Bit `k` of a machine word (`w / 2^k mod 2`). -/
def nthBit (w k : Nat) : Nat := w / 2 ^ k % 2

/-! ## Bank map state touched by `NCCL_NET_MAP_ADD_POINTER`

The macro only reads and writes `mems[HOSTMEM].size` and
`mems[DEVMEM].size`, so the embedded state carries those two sizes. -/

structure NetMapSizes where
  hostSize : Nat
  devSize : Nat
deriving Repr, DecidableEq

def netMapFresh : NetMapSizes := ⟨0, 0⟩

/-- `NCCL_NET_MAP_ADD_POINTER(map, shared, dev, memSize, offsetName)`:
returns the updated bank sizes together with the 32-bit offset word
written into `map->offsets.offsetName`. -/
def addSlot (m : NetMapSizes) (shared dev : Bool) (memSize : Nat) : NetMapSizes × Nat :=
  let bank := NCCL_NET_MAP_MASK_USED
    + (if dev then NCCL_NET_MAP_MASK_DEVMEM else 0)
    + (if shared then NCCL_NET_MAP_MASK_SHARED else 0)
  if shared = false then
    if dev then
      ({ m with devSize := m.devSize + memSize }, bank + m.devSize)
    else
      ({ m with hostSize := m.hostSize + memSize }, bank + m.hostSize)
  else
    (m, bank)

/-- Run a sequence of `NCCL_NET_MAP_ADD_POINTER` calls, collecting the
offset words in order. -/
def runAdds (m : NetMapSizes) : List (Bool × Bool × Nat) → NetMapSizes × List Nat
  | [] => (m, [])
  | (shared, dev, sz) :: rest =>
    let r := addSlot m shared dev sz
    let rr := runAdds r.1 rest
    (rr.1, r.2 :: rr.2)

/-- Sum of the `memSize` contributions directed at the host bank. -/
def hostContrib : List (Bool × Bool × Nat) → Nat
  | [] => 0
  | (shared, dev, sz) :: rest =>
    (if shared = false ∧ dev = false then sz else 0) + hostContrib rest

/-- Sum of the `memSize` contributions directed at the device bank. -/
def devContrib : List (Bool × Bool × Nat) → Nat
  | [] => 0
  | (shared, dev, sz) :: rest =>
    (if shared = false ∧ dev = true then sz else 0) + devContrib rest

def addOpDefault : Bool × Bool × Nat := (true, true, 0)

/-- The bit layout asserted by the spec for claim C3, in the spec's own
words: in the offset word of every present (addSlot-produced) slot,
bit 31 is the USED flag (hence 1), bit 30 is the SHARED flag and
bit 29 is the DEVMEM flag. -/
def specClaimedLayoutC3 : Prop :=
  ∀ (shared dev : Bool) (m : NetMapSizes) (memSize : Nat),
    m.hostSize < 2 ^ 29 → m.devSize < 2 ^ 29 →
    nthBit (addSlot m shared dev memSize).2 31 = 1 ∧
    nthBit (addSlot m shared dev memSize).2 30 = (if shared then 1 else 0) ∧
    nthBit (addSlot m shared dev memSize).2 29 = (if dev then 1 else 0)

/-! ## Shared buffer pool (`sharedBuffersInit` / `sharedBuffersDestroy`)

Buffers and the peer array are modelled by allocation flags; `free`
events are reported in a `FreeLog` so that teardown claims can speak
about which resources a call released. -/

inductive NcclResult where
  | success
  | internalError
deriving Repr, DecidableEq

/-- `struct ncclProxySharedP2p`: `{size, refcount, cudaBuff, hostBuff}`;
the two buffer pointers are modelled by "is allocated" flags. -/
structure NcclProxySharedP2p where
  size : Int
  refcount : Int
  cudaBuff : Bool
  hostBuff : Bool
deriving Repr, DecidableEq

def sharedP2pFresh : NcclProxySharedP2p := ⟨0, 0, false, false⟩

/-- `struct ncclProxyPeer`: one shared-pool record per direction. -/
structure NcclProxyPeer where
  send : NcclProxySharedP2p
  recv : NcclProxySharedP2p
deriving Repr, DecidableEq

def peerFresh : NcclProxyPeer := ⟨sharedP2pFresh, sharedP2pFresh⟩

/-- `progressState.localPeers`: `none` models the NULL array. -/
def LocalPeers := Option (List (Option NcclProxyPeer))

/-- `sharedBuffersInit(comm, cuda, localRank, type, sameProcess, nChannels, ...)`:
returns the result code and the updated `localPeers` pool. The output
pointers/size/IPC handle returned to the caller are not modelled; the
pool mutations are. -/
def sharedBuffersInit (localRanks : Nat) (p2pChunkSize : Nat)
    (pool : Option (List (Option NcclProxyPeer)))
    (cuda : Bool) (localRank : Nat) (type : Nat) (sameProcess : Bool)
    (nChannels : Nat) : NcclResult × Option (List (Option NcclProxyPeer)) :=
  if cuda = false ∧ sameProcess = false then
    (.internalError, pool)
  else
    let arr := match pool with
      | none => List.replicate localRanks none
      | some a => a
    let peer := match arr.getD localRank none with
      | none => peerFresh
      | some p => p
    let state0 := if type = 0 then peer.send else peer.recv
    let state1 := { state0 with refcount := state0.refcount + 1 }
    let state2 := if state1.size = 0 then
        { state1 with size := ((nChannels * NCCL_SHARED_STEPS * p2pChunkSize : Nat) : Int) }
      else state1
    let state3 := if cuda = true ∧ state2.cudaBuff = false then
        { state2 with cudaBuff := true }
      else state2
    let state4 := if cuda = false ∧ state3.hostBuff = false then
        { state3 with hostBuff := true }
      else state3
    let peer2 := if type = 0 then { peer with send := state4 } else { peer with recv := state4 }
    (.success, some (arr.set localRank (some peer2)))

/-- Which resources a `sharedBuffersDestroy` call freed. -/
structure FreeLog where
  freedCudaBuff : Bool
  freedHostBuff : Bool
  freedPeer : Bool
  freedArray : Bool
deriving Repr, DecidableEq

def freeLogNone : FreeLog := ⟨false, false, false, false⟩

/-- `sharedBuffersDestroy(comm, localRank, type)`. -/
def sharedBuffersDestroy (pool : Option (List (Option NcclProxyPeer)))
    (localRank : Nat) (type : Nat) :
    NcclResult × Option (List (Option NcclProxyPeer)) × FreeLog :=
  match pool with
  | none => (.internalError, pool, freeLogNone)
  | some arr =>
    match arr.getD localRank none with
    | none => (.internalError, pool, freeLogNone)
    | some peer =>
      let state0 := if type = 0 then peer.send else peer.recv
      if state0.size = 0 then (.internalError, pool, freeLogNone)
      else
        let state1 := { state0 with refcount := state0.refcount - 1 }
        let log1 : FreeLog :=
          if state1.refcount = 0 then ⟨state1.cudaBuff, state1.hostBuff, false, false⟩
          else freeLogNone
        let peer2 := if type = 0 then { peer with send := state1 } else { peer with recv := state1 }
        let arr2 := arr.set localRank (some peer2)
        if peer2.send.refcount ≠ 0 ∨ peer2.recv.refcount ≠ 0 then
          (.success, some arr2, log1)
        else
          let arr3 := arr2.set localRank none
          if arr3.any (fun x => x.isSome) then
            (.success, some arr3, { log1 with freedPeer := true })
          else
            (.success, none, { log1 with freedPeer := true, freedArray := true })

/-! ## Connect-time memory initialization (`sendProxyConnect`) -/

/-- Store an `int` expression into a `uint64_t`: two's-complement
conversion, i.e. reduction mod `2^64`. -/
def intToUint64 (x : Int) : Nat := (x % (2 ^ 64 : Int)).toNat

/-- `recvMem` is `ncclCudaHostCalloc`-ed, so `sizesFifo` starts zeroed. -/
def sizesFifoZero : Nat → Int := fun _ => 0

def setSizeAt (f : Nat → Int) (i : Nat) : Nat → Int :=
  fun j => if j = i then -1 else f j

/-- `for (int i=0; i<NCCL_STEPS; i++) resources->recvMem->sizesFifo[i] = -1;`
unrolled from index `i` with `n` iterations left. -/
def initSizesFifoAux : Nat → Nat → (Nat → Int) → (Nat → Int)
  | 0, _, f => f
  | n + 1, i, f => initSizesFifoAux n (i + 1) (setSizeAt f i)

def initSizesFifo (f : Nat → Int) : Nat → Int := initSizesFifoAux NCCL_STEPS 0 f

/-- The tail of `sendProxyConnect`: when the fabric send communicator is
still NULL the call answers `done = 0` (modelled as `none`) and does not
initialize the staging memory; once it is ready (`done = 1`) the call
initializes `sendMem->head = map->shared ? -NCCL_STEPS : 0` (stored into
a `uint64_t`) and sets every `recvMem->sizesFifo[i]` to -1. The bank-map
construction and fabric registration in between do not touch these two
fields and are elided. -/
def sendProxyConnectInit (shared : Bool) (commReady : Bool) :
    Option (Nat × (Nat → Int)) :=
  if commReady = false then none
  else some
    (intToUint64 (if shared then -(NCCL_STEPS : Int) else 0),
     initSizesFifo sizesFifoZero)

/-! ## Send progress state machine (`sendProxyProgress`), per-sub cursors

One call of `sendProxyProgress` performs, per sub, at most one credit
grant (action A), one transmit attempt (action B) and one completion
reap (action C). Each action is modelled as a cursor transformer; the
environment (GPU-filled `sizesFifo`/flags, the fabric's `isend` request
and `test` answer) enters as action parameters. -/

structure SendParams where
  shared : Bool
  nsteps : Nat
  sliceSteps : Nat
  maxDepth : Nat
deriving Repr, DecidableEq

structure SendCursors where
  posted : Nat
  transmitted : Nat
  done : Nat
deriving Repr, DecidableEq

inductive SendAct where
  /-- Action A, `posted < nsteps && posted < done + maxDepth`:
  post a buffer to the GPU. In shared mode this also writes
  `offsFifo[slot]` and publishes `sendMem->head`; the cursor effect
  (`posted += sliceSteps`) is identical in both modes. -/
  | post
  /-- Action B, `transmitted < posted && transmitted < done + NCCL_STEPS`:
  `dataReady` is the volatile `sizesFifo[slot] != -1 && (tail or LL)`
  check together with the per-protocol flag readiness; `isendOk` is
  `ncclNetIsend` returning a non-null request. -/
  | transmit (dataReady isendOk : Bool)
  /-- Action C, `done < transmitted`: `testDone` is the completion flag
  returned by `ncclNetTest` on the oldest request. -/
  | reap (testDone : Bool)
deriving Repr, DecidableEq

def sendStep (P : SendParams) (c : SendCursors) : SendAct → SendCursors
  | .post =>
    if c.posted < P.nsteps ∧ c.posted < c.done + P.maxDepth then
      { c with posted := c.posted + P.sliceSteps }
    else c
  | .transmit dataReady isendOk =>
    if c.transmitted < c.posted ∧ c.transmitted < c.done + NCCL_STEPS ∧
        dataReady = true ∧ isendOk = true then
      { c with transmitted := c.transmitted + P.sliceSteps }
    else c
  | .reap testDone =>
    if c.done < c.transmitted ∧ testDone = true then
      { c with done := c.done + P.sliceSteps }
    else c

/-- Cursor states reachable from the `ncclProxyOpReady` reset
(`posted = transmitted = done = 0`) through any interleaving of the
three actions. -/
inductive SendReach (P : SendParams) : SendCursors → Prop
  | init : SendReach P ⟨0, 0, 0⟩
  | step (c : SendCursors) (a : SendAct) : SendReach P c → SendReach P (sendStep P c a)

/-- The send-side cursor contract: `posted ≥ transmitted ≥ done` and all
cursors multiples of `sliceSteps`. -/
def SendInv (slice : Nat) (c : SendCursors) : Prop :=
  c.done ≤ c.transmitted ∧ c.transmitted ≤ c.posted ∧
  slice ∣ c.posted ∧ slice ∣ c.transmitted ∧ slice ∣ c.done

def sendCursorsLE (c d : SendCursors) : Prop :=
  c.posted ≤ d.posted ∧ c.transmitted ≤ d.transmitted ∧ c.done ≤ d.done

/-! ## Recv progress state machine (`recvProxyProgress`), per-group cursors

After the `Ready` regrouping, `recvProxyProgress` walks the subs group
by group. Within a group the four cursors `posted/received/transmitted`
advance in lockstep for every member (the advance loops run over
`subGroup->groupSize` members), while `done` advances per member in
action D. Each phase is modelled as a transformer of the group's member
list; fabric answers (`irecv` request, `test` completion, the value read
from `sendMem->head`) enter as parameters. -/

/-- `struct ncclProxySubArgs` as seen by the recv proxy, together with
the fields of its per-sub `recvResources` that the progress function
reads: `comm` stands for the `netRecvComm` pointer (compared by
identity), `maxRecvs` and `step` come from the resources, and
`channelId` identifies the sub. -/
structure RSub where
  comm : Nat
  maxRecvs : Nat
  step : Nat
  channelId : Nat
  nsteps : Nat
  groupSize : Nat
  base : Nat
  posted : Nat
  received : Nat
  transmitted : Nat
  done : Nat
deriving Repr, DecidableEq, Inhabited

/-- The collect loop of action A: walks the members; a member with
`posted < nsteps` but `posted >= done + maxDepth` aborts the whole group
(`subCount = 0; break`), otherwise it is collected. Returns `none` on
abort, `some subCount` otherwise. -/
def collectLoop (maxDepth : Nat) : List RSub → Option Nat
  | [] => some 0
  | sub :: rest =>
    if sub.posted < sub.nsteps then
      if sub.done + maxDepth ≤ sub.posted then none
      else (collectLoop maxDepth rest).map (· + 1)
    else collectLoop maxDepth rest

/-- Action A: if the collect loop kept `subCount > 0` members and
`ncclNetIrecv` returned a non-null request, every member of the group
advances `posted` by `sliceSteps`. -/
def recvPost (maxDepth slice : Nat) (irecvOk : Bool) (g : List RSub) : List RSub :=
  if 0 < (collectLoop maxDepth g).getD 0 ∧ irecvOk = true then
    g.map (fun sub => { sub with posted := sub.posted + slice })
  else g

/-- Action B: if the group leader has `posted > received` and the oldest
`irecv` request tests complete, every member advances `received` by
`sliceSteps` (the optional `iflush` issued here does not move cursors). -/
def recvFlushTest (slice : Nat) (testDone : Bool) (g : List RSub) : List RSub :=
  match g with
  | [] => []
  | leader :: rest =>
    if leader.received < leader.posted ∧ testDone = true then
      (leader :: rest).map (fun sub => { sub with received := sub.received + slice })
    else leader :: rest

/-- Action C: if the group leader has `received > transmitted` and the
(request or flush-request) at the slot tests complete, every member
advances `transmitted` by `sliceSteps` and publishes `recvMem->tail`. -/
def recvCommit (slice : Nat) (testDone : Bool) (g : List RSub) : List RSub :=
  match g with
  | [] => []
  | leader :: rest =>
    if leader.transmitted < leader.received ∧ testDone = true then
      (leader :: rest).map (fun sub => { sub with transmitted := sub.transmitted + slice })
    else leader :: rest

/-- The inner while loop of action D:
`while (head > base + done && transmitted > done) { done += slice;
if (done == nsteps) break; }`, with the `head` value read once before
the loop. `fuel` bounds the iterations (any `fuel ≥ transmitted + 1`
covers the real loop when `slice ≥ 1`). -/
def recvDoneLoop (slice nsteps base head transmitted : Nat) : Nat → Nat → Nat
  | 0, d => d
  | fuel + 1, d =>
    if base + d < head ∧ d < transmitted then
      if d + slice = nsteps then d + slice
      else recvDoneLoop slice nsteps base head transmitted fuel (d + slice)
    else d

/-- Action D applied to the `i`-th member onward: a member whose
`done == nsteps` is skipped; a member with `transmitted > done` runs the
release loop against the `head` value it reads. -/
def recvReleaseAux (slice : Nat) (heads : Nat → Nat) : Nat → List RSub → List RSub
  | _, [] => []
  | i, sub :: rest =>
    (if sub.done = sub.nsteps then sub
     else if sub.done < sub.transmitted then
       { sub with done := (recvDoneLoop slice sub.nsteps sub.base (heads i)
          sub.transmitted (sub.transmitted + 1) sub.done) }
     else sub) :: recvReleaseAux slice heads (i + 1) rest

def recvRelease (slice : Nat) (heads : Nat → Nat) (g : List RSub) : List RSub :=
  recvReleaseAux slice heads 0 g

inductive RecvAct where
  | post (irecvOk : Bool)
  | flushTest (testDone : Bool)
  | commit (testDone : Bool)
  | release (heads : Nat → Nat)

def recvStep (maxDepth slice : Nat) (g : List RSub) : RecvAct → List RSub
  | .post irecvOk => recvPost maxDepth slice irecvOk g
  | .flushTest testDone => recvFlushTest slice testDone g
  | .commit testDone => recvCommit slice testDone g
  | .release heads => recvRelease slice heads g

/-- The cursor reset performed on entry to `Ready`:
`posted = received = transmitted = done = 0` for every member. -/
abbrev ZeroCursors (g : List RSub) : Prop :=
  ∀ sub ∈ g, sub.posted = 0 ∧ sub.received = 0 ∧ sub.transmitted = 0 ∧ sub.done = 0

/-- Group states reachable from the `Ready` reset through any
interleaving of the four actions. -/
inductive RecvReach (maxDepth slice : Nat) (g0 : List RSub) : List RSub → Prop
  | init : ZeroCursors g0 → RecvReach maxDepth slice g0 g0
  | step (g : List RSub) (a : RecvAct) :
      RecvReach maxDepth slice g0 g → RecvReach maxDepth slice g0 (recvStep maxDepth slice g a)

/-- The recv-side cursor contract for every member:
`posted ≥ received ≥ transmitted ≥ done`, all multiples of
`sliceSteps`. -/
def RecvInv (slice : Nat) (g : List RSub) : Prop :=
  ∀ sub ∈ g, sub.done ≤ sub.transmitted ∧ sub.transmitted ≤ sub.received ∧
    sub.received ≤ sub.posted ∧ slice ∣ sub.posted ∧ slice ∣ sub.received ∧
    slice ∣ sub.transmitted ∧ slice ∣ sub.done

/-- Within a group, `posted/received/transmitted` stay in lockstep:
any two members agree on all three (they are advanced together by the
`for (i = 0; i < groupSize; i++)` loops). -/
def RecvLock (g : List RSub) : Prop :=
  ∀ s ∈ g, ∀ t ∈ g, s.posted = t.posted ∧ s.received = t.received ∧
    s.transmitted = t.transmitted

/-- Pointwise cursor monotonicity between two group states. -/
abbrev recvCursorsLE (g g' : List RSub) : Prop :=
  List.Forall₂ (fun s s' => s.posted ≤ s'.posted ∧ s.received ≤ s'.received ∧
    s.transmitted ≤ s'.transmitted ∧ s.done ≤ s'.done) g g'

/-! ## Recv `Ready`-entry regrouping (`recvProxyProgress`, lines 954-988)

On entry to `Ready` the subs are reordered in place to group together
consecutive subs sharing the same fabric `recvComm`, bounded by
`maxRecvs`; each member's `groupSize` is set, `base` is rounded up from
`resources->step` and the four cursors are reset. -/

/-- `ROUNDUP(x, y) = DIVUP(x, y) * y`. -/
def roundUp (x y : Nat) : Nat := ((x + y - 1) / y) * y

def aget (a : Array RSub) (i : Nat) : RSub := a.getD i default

def aset (a : Array RSub) (i : Nat) (v : RSub) : Array RSub :=
  if h : i < a.size then a.set ⟨i, h⟩ v else a

def aswap (a : Array RSub) (i j : Nat) : Array RSub :=
  if h : i < a.size ∧ j < a.size then a.swap ⟨i, h.1⟩ ⟨j, h.2⟩ else a

/-- `for (next = s; next < nsubs; next++) if (resources(next).netRecvComm
== recvComm) break;` — first index `≥ next` whose comm matches, or
`subs.size`. `fuel ≥ subs.size + 1 - next` covers the loop. -/
def findSameComm (subs : Array RSub) (comm : Nat) : Nat → Nat → Nat
  | 0, next => next
  | fuel + 1, next =>
    if next < subs.size then
      if (aget subs next).comm = comm then next
      else findSameComm subs comm fuel (next + 1)
    else subs.size

/-- `for (int i = 0; i < groupSize; i++) sub[-i].groupSize = groupSize;`
with `c` iterations left starting at offset `i`. -/
def setGroupSizesAux : Array RSub → Nat → Nat → Nat → Nat → Array RSub
  | subs, _, _, _, 0 => subs
  | subs, s, g, i, c + 1 =>
    setGroupSizesAux (aset subs (s - i) { aget subs (s - i) with groupSize := g }) s g (i + 1) c

def setGroupSizes (subs : Array RSub) (s g : Nat) : Array RSub :=
  setGroupSizesAux subs s g 0 g

/-- The head of one grouping iteration: keep or reset the running
`groupSize` and, when a later sub with the same `recvComm` exists, swap
it into position `s`. Returns the (possibly swapped) array and the
`groupSize` value before its increment. -/
def regroupSelect (subs : Array RSub) (s groupSize maxRecvs comm : Nat) : Array RSub × Nat :=
  if groupSize = maxRecvs then (subs, 0)
  else if 0 < s then
    let next := findSameComm subs comm (subs.size + 1) s
    if next = subs.size then (subs, 0)
    else if next ≠ s then (aswap subs s next, groupSize)
    else (subs, groupSize)
  else (subs, groupSize)

/-- The rest of one grouping iteration at position `s`: increment
`groupSize`, reset the cursors and `base` of the sub now at `s`, stamp
`groupSize` into the current group, and hand the sub's `maxRecvs` and
`recvComm` to the next iteration. -/
def regroupBody (chunkSteps : Nat) (subs : Array RSub) (s groupSize maxRecvs comm : Nat) :
    Array RSub × Nat × Nat × Nat :=
  let p := regroupSelect subs s groupSize maxRecvs comm
  let g := p.2 + 1
  let sub := aget p.1 s
  let sub2 := { sub with base := roundUp sub.step chunkSteps, posted := 0, received := 0, transmitted := 0, done := 0 }
  let subs3 := setGroupSizes (aset p.1 s sub2) s g
  (subs3, g, sub.maxRecvs, sub.comm)

/-- One iteration of the grouping loop at position `s`, carrying the
running `groupSize`, the previous sub's `maxRecvs` and its `recvComm`.
`fuel ≥ subs.size - s` covers the loop. -/
def regroupLoop (chunkSteps : Nat) : Nat → Array RSub → Nat → Nat → Nat → Nat → Array RSub
  | 0, subs, _, _, _, _ => subs
  | fuel + 1, subs, s, groupSize, maxRecvs, comm =>
    if s < subs.size then
      let b := regroupBody chunkSteps subs s groupSize maxRecvs comm
      regroupLoop chunkSteps fuel b.1 (s + 1) b.2.1 b.2.2.1 b.2.2.2
    else subs

/-- The whole `Ready`-entry regrouping: `groupSize = 0, maxRecvs = 1`,
`recvComm` is read only after the first iteration (0 stands for the
uninitialized value, which the loop never consults at `s = 0`). -/
def regroup (chunkSteps : Nat) (subs : Array RSub) : Array RSub :=
  regroupLoop chunkSteps subs.size subs 0 0 1 0

/-- Scenario S4: subs 0 and 2 share recvComm `10` (`maxRecvs = 2`),
sub 1 uses comm `20`; channelIds record the original order. -/
def c4Subs : Array RSub :=
  #[{ comm := 10, maxRecvs := 2, step := 0, channelId := 0, nsteps := 4,
      groupSize := 0, base := 0, posted := 1, received := 1, transmitted := 1, done := 1 },
    { comm := 20, maxRecvs := 2, step := 0, channelId := 1, nsteps := 4,
      groupSize := 0, base := 0, posted := 1, received := 1, transmitted := 1, done := 1 },
    { comm := 10, maxRecvs := 2, step := 0, channelId := 2, nsteps := 4,
      groupSize := 0, base := 0, posted := 1, received := 1, transmitted := 1, done := 1 }]

/-- The fields of a sub that the `Ready`-entry regrouping never writes:
`recvComm`, `maxRecvs`, `step`, `channelId` and `nsteps`. The reordering
is in place (only `memcpy` swaps), so the multiset of these projections
is preserved. -/
def rkey (sub : RSub) : Nat × Nat × Nat × Nat × Nat :=
  (sub.comm, sub.maxRecvs, sub.step, sub.channelId, sub.nsteps)

/-- One recvComm group as it appears in the reordered sub list: all
members share one `recvComm`, every member's `groupSize` field holds the
group's common size, and the size is bounded by every member's
`maxRecvs`. -/
def GroupBlock (b : List RSub) : Prop :=
  (∀ x ∈ b, ∀ y ∈ b, x.comm = y.comm) ∧
  (∀ x ∈ b, x.groupSize = b.length) ∧
  (∀ x ∈ b, b.length ≤ x.maxRecvs)

/-- A sub list that is a concatenation of consecutive recvComm groups. -/
inductive Grouped : List RSub → Prop where
  | nil : Grouped []
  | snoc (l b : List RSub) : Grouped l → b ≠ [] → GroupBlock b → Grouped (l ++ b)

/-! ## Whole-call models of `sendProxyProgress` / `recvProxyProgress`

These models follow one entire progress call: the `Ready` entry, the
per-sub (send) or per-group (recv) work with its guards, the early
returns on `idle == 0` (recv), and the final transition to `None` when
`args->done == args->nsubs`. Every fabric-plugin invocation
(`isend`, `irecv`, `test`, `iflush`) is recorded. -/

inductive OpState where
  | opReady
  | opProgress
  | opNone
deriving Repr, DecidableEq

inductive FabricCall where
  | isend
  | irecv
  | test
  | iflush
deriving Repr, DecidableEq

def NCCL_PROTO_LL : Nat := 0

def NCCL_PROTO_LL128 : Nat := 1

def NCCL_PROTO_SIMPLE : Nat := 2

/-- Per-sub state of a send proxy op (`ncclProxySubArgs` plus the
`step`/`shared` fields its `sendResources` contributes). -/
structure SendSubFull where
  step : Nat
  nsteps : Nat
  shared : Bool
  base : Nat
  posted : Nat
  transmitted : Nat
  done : Nat
deriving Repr, DecidableEq, Inhabited

/-- Environment of one send progress call, per sub index: `dataReady`
collapses the volatile `sizesFifo[slot] != -1`, the `recvTail`
comparison and the LL/LL128 flag checks; `isendOk` is `ncclNetIsend`
returning a non-null request; `testDone` is `ncclNetTest` completing. -/
structure SendEnv where
  dataReady : Nat → Bool
  isendOk : Nat → Bool
  testDone : Nat → Bool

/-- Action C of the per-sub body (`done < transmitted`): `ncclNetTest`
is called on the oldest request; on completion `done += sliceSteps` and,
when `done == nsteps`, `resources->step` is promoted and `args->done`
incremented (returned as the middle component). -/
def sendSubReap (slice : Nat) (env : SendEnv) (i : Nat) (sub : SendSubFull) :
    SendSubFull × Nat × List FabricCall :=
  if sub.done < sub.transmitted then
    if env.testDone i = true then
      let sub2 := { sub with done := sub.done + slice }
      if sub2.done = sub2.nsteps then
        ({ sub2 with step := sub2.base + sub2.nsteps }, 1, [.test])
      else (sub2, 0, [.test])
    else (sub, 0, [.test])
  else (sub, 0, [])

/-- One iteration of the per-sub loop body of `sendProxyProgress`:
skip a finished sub; else try action A (grant credits, `continue`);
else try action B (transmit: `isend` is invoked only when the data is
ready, and on a null request the body falls through to action C);
else action C. -/
def sendSubProgress (maxDepth slice : Nat) (env : SendEnv) (i : Nat) (sub : SendSubFull) :
    SendSubFull × Nat × List FabricCall :=
  if sub.done = sub.nsteps then (sub, 0, [])
  else if sub.posted < sub.nsteps ∧ sub.posted < sub.done + maxDepth then
    ({ sub with posted := sub.posted + slice }, 0, [])
  else if sub.transmitted < sub.posted ∧ sub.transmitted < sub.done + NCCL_STEPS ∧
      env.dataReady i = true then
    if env.isendOk i = true then
      ({ sub with transmitted := sub.transmitted + slice }, 0, [.isend])
    else
      let r := sendSubReap slice env i sub
      (r.1, r.2.1, .isend :: r.2.2)
  else sendSubReap slice env i sub

def sendSubsRun (maxDepth slice : Nat) (env : SendEnv) :
    Nat → List SendSubFull → List SendSubFull × Nat × List FabricCall
  | _, [] => ([], 0, [])
  | i, sub :: rest =>
    let r := sendSubProgress maxDepth slice env i sub
    let rr := sendSubsRun maxDepth slice env (i + 1) rest
    (r.1 :: rr.1, r.2.1 + rr.2.1, r.2.2 ++ rr.2.2)

/-- `ncclProxyArgs` as used by the send progress function. -/
structure SendArgs where
  state : OpState
  subs : List SendSubFull
  done : Nat
  sliceSteps : Nat
  chunkSteps : Nat
deriving Repr, DecidableEq

/-- One whole call of `sendProxyProgress`. -/
def sendProxyProgressModel (env : SendEnv) (args : SendArgs) :
    SendArgs × List FabricCall :=
  let args1 := if args.state = OpState.opReady then
      { args with
        subs := args.subs.map (fun sub =>
          { sub with
            base := roundUp sub.step args.chunkSteps
            posted := 0
            transmitted := 0
            done := 0 })
        state := OpState.opProgress }
    else args
  if args1.state = OpState.opProgress then
    let maxDepth := min NCCL_STEPS (NCCL_SHARED_STEPS / args1.subs.length)
    let r := sendSubsRun maxDepth args1.sliceSteps env 0 args1.subs
    let newDone := args1.done + r.2.1
    ({ args1 with
       subs := r.1
       done := newDone
       state := if newDone = args1.subs.length then OpState.opNone
         else OpState.opProgress }, r.2.2)
  else (args1, [])

/-- Environment of one recv progress call, per group index: `irecvOk` is
`ncclNetIrecv` returning a non-null request; `testDone` is the phase-B
`ncclNetTest`; `flushNeeded` collapses `totalSize > 0 && needFlush`
(with `gdcFlush` unset, so a flush issues `ncclNetIflush`);
`commitReqPresent`/`commitTestDone` drive the phase-C test of the
possibly-overwritten request; `heads gi i` is the `sendMem->head` value
member `i` of group `gi` reads in phase D. -/
structure RecvEnv where
  irecvOk : Nat → Bool
  testDone : Nat → Bool
  flushNeeded : Nat → Bool
  commitReqPresent : Nat → Bool
  commitTestDone : Nat → Bool
  heads : Nat → Nat → Nat

/-- Cut the flat sub list into groups following the
`s += args->subs[s].groupSize` stride (a `groupSize` of 0, impossible
after regrouping, is read as 1 so the model stays total). -/
def chunkGroupsAux : Nat → List RSub → List (List RSub)
  | 0, _ => []
  | _, [] => []
  | fuel + 1, sub :: rest =>
    let g := max 1 sub.groupSize
    (sub :: rest).take g :: chunkGroupsAux fuel ((sub :: rest).drop g)

def chunkGroups (l : List RSub) : List (List RSub) := chunkGroupsAux l.length l

/-- Phase A over all groups: post fused receives. Returns the groups,
the `idle` flag and the fabric calls. -/
def recvPhaseA (maxDepth slice : Nat) (env : RecvEnv) :
    Nat → List (List RSub) → List (List RSub) × Bool × List FabricCall
  | _, [] => ([], true, [])
  | gi, g :: gs =>
    let r :=
      if 0 < (collectLoop maxDepth g).getD 0 then
        if env.irecvOk gi = true then
          (g.map (fun sub => { sub with posted := sub.posted + slice }),
           false, [FabricCall.irecv])
        else (g, true, [FabricCall.irecv])
      else (g, true, [])
    let rr := recvPhaseA maxDepth slice env (gi + 1) gs
    (r.1 :: rr.1, r.2.1 && rr.2.1, r.2.2 ++ rr.2.2)

/-- Phase B over all groups: test the oldest receive and, for SIMPLE
with GDR flush needed, issue `iflush`. -/
def recvPhaseB (slice protocol : Nat) (env : RecvEnv) :
    Nat → List (List RSub) → List (List RSub) × Bool × List FabricCall
  | _, [] => ([], true, [])
  | gi, g :: gs =>
    let r :=
      match g with
      | [] => (g, true, ([] : List FabricCall))
      | leader :: _ =>
        if leader.received < leader.posted then
          if env.testDone gi = true then
            let g2 := g.map (fun (sub : RSub) => { sub with received := sub.received + slice })
            if env.flushNeeded gi = true ∧ protocol = NCCL_PROTO_SIMPLE then
              (g2, false, [FabricCall.test, FabricCall.iflush])
            else (g2, false, [FabricCall.test])
          else (g, true, [FabricCall.test])
        else (g, true, [])
    let rr := recvPhaseB slice protocol env (gi + 1) gs
    (r.1 :: rr.1, r.2.1 && rr.2.1, r.2.2 ++ rr.2.2)

/-- Phase C over all groups: await the (possibly flush-) request and
publish `recvMem->tail`; a null request counts as complete without a
`test` call. -/
def recvPhaseC (slice : Nat) (env : RecvEnv) :
    Nat → List (List RSub) → List (List RSub) × Bool × List FabricCall
  | _, [] => ([], true, [])
  | gi, g :: gs =>
    let r :=
      match g with
      | [] => (g, true, ([] : List FabricCall))
      | leader :: _ =>
        if leader.transmitted < leader.received then
          if env.commitReqPresent gi = true then
            if env.commitTestDone gi = true then
              (g.map (fun (sub : RSub) => { sub with transmitted := sub.transmitted + slice }),
               false, [FabricCall.test])
            else (g, true, [FabricCall.test])
          else
            (g.map (fun (sub : RSub) => { sub with transmitted := sub.transmitted + slice }),
             false, ([] : List FabricCall))
        else (g, true, [])
    let rr := recvPhaseC slice env (gi + 1) gs
    (r.1 :: rr.1, r.2.1 && rr.2.1, r.2.2 ++ rr.2.2)

/-- Phase D for one member: release credits against the `sendMem->head`
value read. Returns the sub, the increment of `args->done` and whether
the loop made progress. -/
def recvPhaseDSub (slice : Nat) (head : Nat) (sub : RSub) : RSub × Nat × Bool :=
  if sub.done = sub.nsteps then (sub, 0, false)
  else if sub.done < sub.transmitted then
    let d := recvDoneLoop slice sub.nsteps sub.base head sub.transmitted
      (sub.transmitted + 1) sub.done
    let sub2 := if d = sub.nsteps then
        { sub with
          done := d
          step := sub.base + sub.nsteps }
      else { sub with done := d }
    (sub2, if d = sub.nsteps then 1 else 0,
     decide (sub.base + sub.done < head ∧ sub.done < sub.transmitted))
  else (sub, 0, false)

def recvPhaseDGroup (slice : Nat) (heads : Nat → Nat) :
    Nat → List RSub → List RSub × Nat × Bool
  | _, [] => ([], 0, true)
  | i, sub :: rest =>
    let r := recvPhaseDSub slice (heads i) sub
    let rr := recvPhaseDGroup slice heads (i + 1) rest
    (r.1 :: rr.1, r.2.1 + rr.2.1, !r.2.2 && rr.2.2)

def recvPhaseD (slice : Nat) (env : RecvEnv) :
    Nat → List (List RSub) → List (List RSub) × Nat × Bool
  | _, [] => ([], 0, true)
  | gi, g :: gs =>
    let r := recvPhaseDGroup slice (env.heads gi) 0 g
    let rr := recvPhaseD slice env (gi + 1) gs
    (r.1 :: rr.1, r.2.1 + rr.2.1, r.2.2 && rr.2.2)

/-- `ncclProxyArgs` as used by the recv progress function. -/
structure RecvArgs where
  state : OpState
  subs : List RSub
  done : Nat
  sliceSteps : Nat
  chunkSteps : Nat
  protocol : Nat
deriving Repr, DecidableEq

/-- One whole call of `recvProxyProgress`: `Ready` regrouping, then
phases A-D with the early `return` after any phase that cleared
`idle`, then the transition to `None` when `args->done == nsubs`. -/
def recvProxyProgressModel (env : RecvEnv) (args : RecvArgs) :
    RecvArgs × List FabricCall :=
  let args1 := if args.state = OpState.opReady then
      { args with
        subs := (regroup args.chunkSteps args.subs.toArray).toList
        state := OpState.opProgress }
    else args
  if args1.state = OpState.opProgress then
    let maxDepth := min NCCL_STEPS (NCCL_SHARED_STEPS / args1.subs.length)
    let ra := recvPhaseA maxDepth args1.sliceSteps env 0 (chunkGroups args1.subs)
    if ra.2.1 = false then ({ args1 with subs := ra.1.flatten }, ra.2.2)
    else
      let rb := recvPhaseB args1.sliceSteps args1.protocol env 0 ra.1
      if rb.2.1 = false then
        ({ args1 with subs := rb.1.flatten }, ra.2.2 ++ rb.2.2)
      else
        let rc := recvPhaseC args1.sliceSteps env 0 rb.1
        if rc.2.1 = false then
          ({ args1 with subs := rc.1.flatten }, ra.2.2 ++ rb.2.2 ++ rc.2.2)
        else
          let rd := recvPhaseD args1.sliceSteps env 0 rc.1
          let newDone := args1.done + rd.2.1
          ({ args1 with
             subs := rd.1.flatten
             done := newDone
             state := if newDone = args1.subs.length then OpState.opNone
               else OpState.opProgress }, ra.2.2 ++ rb.2.2 ++ rc.2.2)
  else (args1, [])

/-- A member state in which nothing can ever fire: zero steps to
transfer and all cursors at their reset values. -/
abbrev ZSub (sub : RSub) : Prop :=
  sub.nsteps = 0 ∧ sub.posted = 0 ∧ sub.received = 0 ∧
  sub.transmitted = 0 ∧ sub.done = 0

/-- The concrete all-`nsteps = 0` ops used to refute C2. -/
def c2SendOp : SendArgs :=
  ⟨OpState.opReady, [⟨0, 0, false, 0, 0, 0, 0⟩], 0, 2, 2⟩

def c2SendEnv : SendEnv := ⟨fun _ => true, fun _ => true, fun _ => true⟩

def c2RecvOp : RecvArgs :=
  ⟨OpState.opReady, [⟨10, 2, 0, 0, 0, 1, 0, 0, 0, 0, 0⟩], 0, 2, 2, NCCL_PROTO_SIMPLE⟩

def c2RecvEnv : RecvEnv :=
  ⟨fun _ => true, fun _ => true, fun _ => true, fun _ => true, fun _ => true,
   fun _ _ => 1000⟩

/-! ## Theorems -/

theorem runAdds_hostSize (ops : List (Bool × Bool × Nat)) :
    ∀ m : NetMapSizes, (runAdds m ops).1.hostSize = m.hostSize + hostContrib ops := by
  induction ops with
  | nil => intro m; simp [runAdds, hostContrib]
  | cons op rest ih =>
    intro m
    obtain ⟨shared, dev, sz⟩ := op
    simp only [runAdds, hostContrib, ih]
    cases shared <;> cases dev <;> simp [addSlot] <;> omega

theorem runAdds_devSize (ops : List (Bool × Bool × Nat)) :
    ∀ m : NetMapSizes, (runAdds m ops).1.devSize = m.devSize + devContrib ops := by
  induction ops with
  | nil => intro m; simp [runAdds, devContrib]
  | cons op rest ih =>
    intro m
    obtain ⟨shared, dev, sz⟩ := op
    simp only [runAdds, devContrib, ih]
    cases shared <;> cases dev <;> simp [addSlot] <;> omega

theorem runAdds_length (ops : List (Bool × Bool × Nat)) :
    ∀ m : NetMapSizes, (runAdds m ops).2.length = ops.length := by
  induction ops with
  | nil => intro m; simp [runAdds]
  | cons op rest ih =>
    intro m
    obtain ⟨shared, dev, sz⟩ := op
    simp [runAdds, ih]

/-- The `k`-th offset word produced by a run equals the word `addSlot`
yields at the bank state reached after the first `k` calls. -/
theorem runAdds_getD (ops : List (Bool × Bool × Nat)) :
    ∀ (m : NetMapSizes) (k : Nat), k < ops.length →
      (runAdds m ops).2.getD k 0 =
        (addSlot (runAdds m (ops.take k)).1
          (ops.getD k addOpDefault).1
          (ops.getD k addOpDefault).2.1
          (ops.getD k addOpDefault).2.2).2 := by
  induction ops with
  | nil => intro m k hk; simp at hk
  | cons op rest ih =>
    intro m k hk
    obtain ⟨shared, dev, sz⟩ := op
    match k with
    | 0 => simp [runAdds, List.getD]
    | k + 1 =>
      have hk' : k < rest.length := by simpa using hk
      simp only [runAdds, List.take_succ_cons, List.getD_cons_succ]
      exact ih (addSlot m shared dev sz).1 k hk'

theorem addSlot_snd_mod (m : NetMapSizes) (shared dev : Bool) (sz : Nat)
    (hh : m.hostSize < 2 ^ 29) (hd : m.devSize < 2 ^ 29) :
    (addSlot m shared dev sz).2 % 2 ^ 29 =
      (if shared then 0 else if dev then m.devSize else m.hostSize) := by
  cases shared <;> cases dev <;>
    (simp only [addSlot, NCCL_NET_MAP_MASK_USED, NCCL_NET_MAP_MASK_DEVMEM,
      NCCL_NET_MAP_MASK_SHARED]; norm_num) <;> omega

theorem addSlot_nthBit29 (m : NetMapSizes) (shared dev : Bool) (sz : Nat)
    (hh : m.hostSize < 2 ^ 29) (hd : m.devSize < 2 ^ 29) :
    nthBit (addSlot m shared dev sz).2 29 = 1 := by
  cases shared <;> cases dev <;>
    (simp only [addSlot, nthBit, NCCL_NET_MAP_MASK_USED, NCCL_NET_MAP_MASK_DEVMEM,
      NCCL_NET_MAP_MASK_SHARED]; norm_num) <;> omega

theorem addSlot_nthBit30 (m : NetMapSizes) (shared dev : Bool) (sz : Nat)
    (hh : m.hostSize < 2 ^ 29) (hd : m.devSize < 2 ^ 29) :
    nthBit (addSlot m shared dev sz).2 30 = (if dev then 1 else 0) := by
  cases shared <;> cases dev <;>
    (simp only [addSlot, nthBit, NCCL_NET_MAP_MASK_USED, NCCL_NET_MAP_MASK_DEVMEM,
      NCCL_NET_MAP_MASK_SHARED]; norm_num) <;> omega

theorem addSlot_nthBit31 (m : NetMapSizes) (shared dev : Bool) (sz : Nat)
    (hh : m.hostSize < 2 ^ 29) (hd : m.devSize < 2 ^ 29) :
    nthBit (addSlot m shared dev sz).2 31 = (if shared then 1 else 0) := by
  cases shared <;> cases dev <;>
    (simp only [addSlot, nthBit, NCCL_NET_MAP_MASK_USED, NCCL_NET_MAP_MASK_DEVMEM,
      NCCL_NET_MAP_MASK_SHARED]; norm_num) <;> omega

theorem addSlot_bank (m : NetMapSizes) (shared dev : Bool) (sz : Nat)
    (hh : m.hostSize < 2 ^ 29) (hd : m.devSize < 2 ^ 29) :
    NCCL_NET_MAP_OFFSET_BANK (addSlot m shared dev sz).2 =
      (if shared then 2 else 0) + (if dev then 1 else 0) := by
  cases shared <;> cases dev <;>
    (simp only [addSlot, NCCL_NET_MAP_OFFSET_BANK, Nat.shiftRight_eq_div_pow,
      NCCL_NET_MAP_MASK_USED, NCCL_NET_MAP_MASK_DEVMEM,
      NCCL_NET_MAP_MASK_SHARED]; norm_num) <;> omega

theorem land_two_pow_ne_zero_iff (w k : Nat) :
    ((w &&& 2 ^ k) ≠ 0) ↔ nthBit w k = 1 := by
  have htdm := Nat.testBit_to_div_mod (x := w) (i := k)
  rw [Nat.and_two_pow]
  cases htb : w.testBit k with
  | false =>
    rw [htb] at htdm
    have hne : ¬ (w / 2 ^ k % 2 = 1) := by
      intro hc
      simp [hc] at htdm
    simp [nthBit, hne]
  | true =>
    rw [htb] at htdm
    have heq : w / 2 ^ k % 2 = 1 := by
      by_contra hc
      simp [hc] at htdm
    have hp : (2 : Nat) ^ k ≠ 0 := by positivity
    simp [nthBit, heq, hp]

theorem offset_null_iff (w : Nat) (hw : w < 2 ^ 32) :
    NCCL_NET_MAP_OFFSET_NULL w = true ↔
      nthBit w 29 = 0 ∧ nthBit w 30 = 0 ∧ nthBit w 31 = 0 := by
  simp only [NCCL_NET_MAP_OFFSET_NULL, Nat.shiftRight_eq_div_pow, beq_iff_eq, nthBit]
  norm_num
  omega

theorem addSlot_not_null (m : NetMapSizes) (shared dev : Bool) (sz : Nat)
    (hh : m.hostSize < 2 ^ 29) (hd : m.devSize < 2 ^ 29) :
    NCCL_NET_MAP_OFFSET_NULL (addSlot m shared dev sz).2 = false := by
  cases shared <;> cases dev <;>
    (simp only [addSlot, NCCL_NET_MAP_OFFSET_NULL, Nat.shiftRight_eq_div_pow,
      NCCL_NET_MAP_MASK_USED, NCCL_NET_MAP_MASK_DEVMEM,
      NCCL_NET_MAP_MASK_SHARED, beq_eq_false_iff_ne, ne_eq]; norm_num) <;> omega

/-- **C3, counterexample.** The spec's bit assignment is wrong on the code:
the slot word recorded by `NCCL_NET_MAP_ADD_POINTER` for a present
non-shared host slot on a fresh map is `0x20000000`, whose bit 31 is 0,
while the spec's table demands that bit 31 (as the USED flag) be 1 for
every present slot. -/
theorem c3_layout_counterexample : ¬ specClaimedLayoutC3 := by
  intro h
  have h0 := (h false false netMapFresh 16 (by norm_num [netMapFresh])
    (by norm_num [netMapFresh])).1
  exact absurd h0 (by decide)

/-- **C3, amended.** In the 32-bit offset word of every bank-map slot
recorded by `NCCL_NET_MAP_ADD_POINTER`, bit 29 is the USED (present)
flag, bit 31 is the SHARED flag, bit 30 is the DEVMEM flag, the low 29
bits (`& NCCL_NET_MAP_MASK_OFFSET`) are the byte offset within the bank,
and a word whose top three bits are all zero denotes the NULL (unset)
slot — every recorded slot is non-NULL. -/
theorem c3_offset_word_layout (shared dev : Bool) (m : NetMapSizes) (memSize : Nat)
    (hh : m.hostSize < 2 ^ 29) (hd : m.devSize < 2 ^ 29) :
    nthBit (addSlot m shared dev memSize).2 29 = 1 ∧
    nthBit (addSlot m shared dev memSize).2 31 = (if shared then 1 else 0) ∧
    nthBit (addSlot m shared dev memSize).2 30 = (if dev then 1 else 0) ∧
    ((addSlot m shared dev memSize).2 &&& NCCL_NET_MAP_MASK_OFFSET =
      (if shared then 0 else if dev then m.devSize else m.hostSize)) ∧
    NCCL_NET_MAP_OFFSET_NULL (addSlot m shared dev memSize).2 = false ∧
    (∀ w : Nat, w < 2 ^ 32 →
      (NCCL_NET_MAP_OFFSET_NULL w = true ↔
        nthBit w 29 = 0 ∧ nthBit w 30 = 0 ∧ nthBit w 31 = 0)) := by
  refine ⟨addSlot_nthBit29 m shared dev memSize hh hd,
    addSlot_nthBit31 m shared dev memSize hh hd,
    addSlot_nthBit30 m shared dev memSize hh hd, ?_,
    addSlot_not_null m shared dev memSize hh hd,
    fun w hw => offset_null_iff w hw⟩
  have hmask : NCCL_NET_MAP_MASK_OFFSET = 2 ^ 29 - 1 := by
    norm_num [NCCL_NET_MAP_MASK_OFFSET]
  rw [hmask, Nat.and_pow_two_sub_one_eq_mod]
  exact addSlot_snd_mod m shared dev memSize hh hd

/-- **C3, amended, witness.** The amended layout theorem at a concrete
input: a device slot added to a map whose banks hold 3 and 5 bytes, and
the NULL characterization at the concrete word 12345. -/
theorem c3_offset_word_layout_witness :
    (3 : Nat) < 2 ^ 29 ∧ (5 : Nat) < 2 ^ 29 ∧
    nthBit (addSlot ⟨3, 5⟩ false true 7).2 29 = 1 ∧
    nthBit (addSlot ⟨3, 5⟩ false true 7).2 31 = (if false then 1 else 0) ∧
    nthBit (addSlot ⟨3, 5⟩ false true 7).2 30 = (if true then 1 else 0) ∧
    ((addSlot ⟨3, 5⟩ false true 7).2 &&& NCCL_NET_MAP_MASK_OFFSET =
      (if false then 0 else if true then (5 : Nat) else 3)) ∧
    NCCL_NET_MAP_OFFSET_NULL (addSlot ⟨3, 5⟩ false true 7).2 = false ∧
    (NCCL_NET_MAP_OFFSET_NULL 12345 = true ↔
      nthBit 12345 29 = 0 ∧ nthBit 12345 30 = 0 ∧ nthBit 12345 31 = 0) := by
  have h := c3_offset_word_layout false true ⟨3, 5⟩ 7 (by norm_num) (by norm_num)
  exact ⟨by norm_num, by norm_num, h.1, h.2.1, h.2.2.1, h.2.2.2.1, h.2.2.2.2.1,
    h.2.2.2.2.2 12345 (by norm_num)⟩

/-- **C9.** For every slot recorded by `NCCL_NET_MAP_ADD_POINTER`, the
DEVMEM bit of the offset word (`NCCL_NET_MAP_DEV_MEM`) is set exactly
when the bank selected by the word's top bits
(`NCCL_NET_MAP_OFFSET_BANK`) is the device bank or the shared-device
bank. -/
theorem c9_devmem_iff_device_bank (shared dev : Bool) (m : NetMapSizes) (memSize : Nat)
    (hh : m.hostSize < 2 ^ 29) (hd : m.devSize < 2 ^ 29) :
    NCCL_NET_MAP_DEV_MEM (addSlot m shared dev memSize).2 = true ↔
      (NCCL_NET_MAP_OFFSET_BANK (addSlot m shared dev memSize).2 = NCCL_NET_MAP_DEVMEM ∨
       NCCL_NET_MAP_OFFSET_BANK (addSlot m shared dev memSize).2 = NCCL_NET_MAP_SHARED_DEVMEM) := by
  have h30 := addSlot_nthBit30 m shared dev memSize hh hd
  have hbank := addSlot_bank m shared dev memSize hh hd
  have hdev : NCCL_NET_MAP_MASK_DEVMEM = 2 ^ 30 := by
    norm_num [NCCL_NET_MAP_MASK_DEVMEM]
  have hland := land_two_pow_ne_zero_iff (addSlot m shared dev memSize).2 30
  simp only [NCCL_NET_MAP_DEV_MEM, hdev, bne_iff_ne, ne_eq]
  rw [← ne_eq, hland, h30, hbank]
  cases shared <;> cases dev <;>
    simp [NCCL_NET_MAP_DEVMEM, NCCL_NET_MAP_SHARED_DEVMEM]

/-- **C9, witness.** The bank/DEVMEM correspondence at a concrete input:
a shared device slot. -/
theorem c9_devmem_iff_device_bank_witness :
    NCCL_NET_MAP_DEV_MEM (addSlot ⟨2, 4⟩ true true 9).2 = true ↔
      (NCCL_NET_MAP_OFFSET_BANK (addSlot ⟨2, 4⟩ true true 9).2 = NCCL_NET_MAP_DEVMEM ∨
       NCCL_NET_MAP_OFFSET_BANK (addSlot ⟨2, 4⟩ true true 9).2 = NCCL_NET_MAP_SHARED_DEVMEM) :=
  c9_devmem_iff_device_bank true true ⟨2, 4⟩ 9 (by norm_num) (by norm_num)

theorem hostContrib_append (l1 l2 : List (Bool × Bool × Nat)) :
    hostContrib (l1 ++ l2) = hostContrib l1 + hostContrib l2 := by
  induction l1 with
  | nil => simp [hostContrib]
  | cons op rest ih =>
    obtain ⟨shared, dev, sz⟩ := op
    simp [hostContrib, ih]
    omega

theorem devContrib_append (l1 l2 : List (Bool × Bool × Nat)) :
    devContrib (l1 ++ l2) = devContrib l1 + devContrib l2 := by
  induction l1 with
  | nil => simp [devContrib]
  | cons op rest ih =>
    obtain ⟨shared, dev, sz⟩ := op
    simp [devContrib, ih]
    omega

theorem hostContrib_take_le (ops : List (Bool × Bool × Nat)) (j k : Nat) (h : j ≤ k) :
    hostContrib (ops.take j) ≤ hostContrib (ops.take k) := by
  have hk : k = j + (k - j) := by omega
  rw [hk, List.take_add, hostContrib_append]
  omega

theorem devContrib_take_le (ops : List (Bool × Bool × Nat)) (j k : Nat) (h : j ≤ k) :
    devContrib (ops.take j) ≤ devContrib (ops.take k) := by
  have hk : k = j + (k - j) := by omega
  rw [hk, List.take_add, devContrib_append]
  omega

theorem take_succ_getD (ops : List (Bool × Bool × Nat)) (k : Nat) (hk : k < ops.length) :
    ops.take (k + 1) = ops.take k ++ [ops.getD k addOpDefault] := by
  rw [List.take_succ]
  congr 1
  rw [List.getD_eq_getElem ops addOpDefault hk, List.getElem?_eq_getElem hk]
  rfl

/-- The low 29 bits of the `k`-th offset word of a fresh run equal the
prefix sum of the `memSize` contributions to the slot's bank (0 for a
shared slot). -/
theorem runAdds_offset (ops : List (Bool × Bool × Nat))
    (hhost : hostContrib ops < 2 ^ 29) (hdev : devContrib ops < 2 ^ 29)
    (k : Nat) (hk : k < ops.length) :
    (runAdds netMapFresh ops).2.getD k 0 % 2 ^ 29 =
      (if (ops.getD k addOpDefault).1 then 0
       else if (ops.getD k addOpDefault).2.1 then devContrib (ops.take k)
       else hostContrib (ops.take k)) := by
  rw [runAdds_getD ops netMapFresh k hk]
  have h1 : (runAdds netMapFresh (ops.take k)).1.hostSize = hostContrib (ops.take k) := by
    rw [runAdds_hostSize]
    simp [netMapFresh]
  have h2 : (runAdds netMapFresh (ops.take k)).1.devSize = devContrib (ops.take k) := by
    rw [runAdds_devSize]
    simp [netMapFresh]
  have htl : ops.take ops.length = ops := List.take_length ops
  have hb1 : hostContrib (ops.take k) < 2 ^ 29 := by
    have := hostContrib_take_le ops k ops.length (Nat.le_of_lt hk)
    rw [htl] at this
    omega
  have hb2 : devContrib (ops.take k) < 2 ^ 29 := by
    have := devContrib_take_le ops k ops.length (Nat.le_of_lt hk)
    rw [htl] at this
    omega
  rw [addSlot_snd_mod _ _ _ _ (by rw [h1]; exact hb1) (by rw [h2]; exact hb2), h1, h2]

theorem hostContrib_singleton (op : Bool × Bool × Nat) :
    hostContrib [op] = if op.1 = false ∧ op.2.1 = false then op.2.2 else 0 := by
  obtain ⟨shared, dev, sz⟩ := op
  simp [hostContrib]

theorem devContrib_singleton (op : Bool × Bool × Nat) :
    devContrib [op] = if op.1 = false ∧ op.2.1 = true then op.2.2 else 0 := by
  obtain ⟨shared, dev, sz⟩ := op
  simp [devContrib]

/-- **C6.** For every sequence of `NCCL_NET_MAP_ADD_POINTER` calls on a
fresh bank map (banks bounded by the 29-bit offset field): each
non-shared slot is appended at byte offset equal to the bank's current
size (the prefix sum of earlier contributions to that bank) and the
bank's size grows by the slot's `memSize`, so each non-shared bank's
final size is the sum of the `memSize` contributions directed at it;
the slots of a non-shared bank occupy pairwise disjoint
`[offset, offset+size)` ranges with strictly increasing offsets (for
positive sizes); and every shared slot records offset 0. -/
theorem c6_bank_append_layout (ops : List (Bool × Bool × Nat))
    (hhost : hostContrib ops < 2 ^ 29) (hdev : devContrib ops < 2 ^ 29) :
    ((runAdds netMapFresh ops).1.hostSize = hostContrib ops ∧
     (runAdds netMapFresh ops).1.devSize = devContrib ops) ∧
    (∀ k, k < ops.length →
      ((ops.getD k addOpDefault).1 = true →
        (runAdds netMapFresh ops).2.getD k 0 % 2 ^ 29 = 0) ∧
      ((ops.getD k addOpDefault).1 = false →
        (runAdds netMapFresh ops).2.getD k 0 % 2 ^ 29 =
          (if (ops.getD k addOpDefault).2.1 then devContrib (ops.take k)
           else hostContrib (ops.take k)))) ∧
    (∀ j k, j < k → k < ops.length →
      (ops.getD j addOpDefault).1 = false → (ops.getD k addOpDefault).1 = false →
      (ops.getD j addOpDefault).2.1 = (ops.getD k addOpDefault).2.1 →
      (runAdds netMapFresh ops).2.getD j 0 % 2 ^ 29 + (ops.getD j addOpDefault).2.2 ≤
        (runAdds netMapFresh ops).2.getD k 0 % 2 ^ 29 ∧
      (0 < (ops.getD j addOpDefault).2.2 →
        (runAdds netMapFresh ops).2.getD j 0 % 2 ^ 29 <
          (runAdds netMapFresh ops).2.getD k 0 % 2 ^ 29)) := by
  refine ⟨⟨by rw [runAdds_hostSize]; simp [netMapFresh], by rw [runAdds_devSize]; simp [netMapFresh]⟩, ?_, ?_⟩
  · intro k hk
    constructor
    · intro hsh
      rw [runAdds_offset ops hhost hdev k hk, hsh]
      exact if_pos rfl
    · intro hsh
      rw [runAdds_offset ops hhost hdev k hk, hsh]
      rfl
  · intro j k hjk hk hshj hshk hdevflag
    have hj : j < ops.length := Nat.lt_trans hjk hk
    have hoffj := runAdds_offset ops hhost hdev j hj
    have hoffk := runAdds_offset ops hhost hdev k hk
    rw [hshj] at hoffj
    rw [hshk] at hoffk
    simp only [Bool.false_eq_true, if_false] at hoffj hoffk
    have hsucc := take_succ_getD ops j hj
    cases hdevcase : (ops.getD j addOpDefault).2.1 with
    | false =>
      rw [hdevcase] at hoffj
      rw [← hdevflag, hdevcase] at hoffk
      rw [if_neg Bool.false_ne_true] at hoffj
      rw [if_neg Bool.false_ne_true] at hoffk
      have hstep : hostContrib (ops.take (j + 1)) =
          hostContrib (ops.take j) + (ops.getD j addOpDefault).2.2 := by
        rw [hsucc, hostContrib_append, hostContrib_singleton,
          if_pos (And.intro hshj hdevcase)]
      have hmono := hostContrib_take_le ops (j + 1) k hjk
      rw [hoffj, hoffk]
      omega
    | true =>
      rw [hdevcase] at hoffj
      rw [← hdevflag, hdevcase] at hoffk
      rw [if_pos rfl] at hoffj
      rw [if_pos rfl] at hoffk
      have hstep : devContrib (ops.take (j + 1)) =
          devContrib (ops.take j) + (ops.getD j addOpDefault).2.2 := by
        rw [hsucc, devContrib_append, devContrib_singleton,
          if_pos (And.intro hshj hdevcase)]
      have hmono := devContrib_take_le ops (j + 1) k hjk
      rw [hoffj, hoffk]
      omega

/-- The concrete call sequence used as the C6 witness: a host slot,
a device slot, a shared-device slot, then another host slot. -/
def c6WitnessOps : List (Bool × Bool × Nat) :=
  [(false, false, 16), (false, true, 32), (true, true, 0), (false, false, 8)]

/-- **C6, witness.** The layout theorem applied to the concrete sequence
`c6WitnessOps`, instantiated at slots 0, 2 and 3. -/
theorem c6_bank_append_layout_witness :
    hostContrib c6WitnessOps < 2 ^ 29 ∧ devContrib c6WitnessOps < 2 ^ 29 ∧
    (runAdds netMapFresh c6WitnessOps).1.hostSize = hostContrib c6WitnessOps ∧
    ((c6WitnessOps.getD 2 addOpDefault).1 = true →
      (runAdds netMapFresh c6WitnessOps).2.getD 2 0 % 2 ^ 29 = 0) ∧
    ((c6WitnessOps.getD 3 addOpDefault).1 = false →
      (runAdds netMapFresh c6WitnessOps).2.getD 3 0 % 2 ^ 29 =
        (if (c6WitnessOps.getD 3 addOpDefault).2.1 then devContrib (c6WitnessOps.take 3)
         else hostContrib (c6WitnessOps.take 3))) ∧
    ((c6WitnessOps.getD 0 addOpDefault).1 = false → (c6WitnessOps.getD 3 addOpDefault).1 = false →
      (c6WitnessOps.getD 0 addOpDefault).2.1 = (c6WitnessOps.getD 3 addOpDefault).2.1 →
      (runAdds netMapFresh c6WitnessOps).2.getD 0 0 % 2 ^ 29 + (c6WitnessOps.getD 0 addOpDefault).2.2 ≤
        (runAdds netMapFresh c6WitnessOps).2.getD 3 0 % 2 ^ 29 ∧
      (0 < (c6WitnessOps.getD 0 addOpDefault).2.2 →
        (runAdds netMapFresh c6WitnessOps).2.getD 0 0 % 2 ^ 29 <
          (runAdds netMapFresh c6WitnessOps).2.getD 3 0 % 2 ^ 29)) := by
  have h := c6_bank_append_layout c6WitnessOps (by decide) (by decide)
  exact ⟨by decide, by decide, h.1.1, (h.2.1 2 (by decide)).1, (h.2.1 3 (by decide)).2,
    h.2.2 0 3 (by decide) (by decide)⟩

/-- **C8.** `sharedBuffersInit` returns InternalError whenever
`cuda == false && sameProcess == false`, and on that error path the
shared-pool state is unchanged: the pool is returned exactly as it was,
with no refcount incremented, no size set and no buffer allocated. -/
theorem c8_init_cross_process_host_error (localRanks p2pChunkSize : Nat)
    (pool : Option (List (Option NcclProxyPeer))) (localRank type nChannels : Nat) :
    sharedBuffersInit localRanks p2pChunkSize pool false localRank type false nChannels =
      (.internalError, pool) := by
  simp [sharedBuffersInit]

theorem getD_set_self {α : Type} (l : List α) (n : Nat) (a d : α) (h : n < l.length) :
    (l.set n a).getD n d = a := by
  rw [List.getD_eq_getElem _ _ (by simpa using h)]
  simp

theorem getD_some_lt (l : List (Option NcclProxyPeer)) (n : Nat) (x : NcclProxyPeer)
    (hg : l.getD n none = some x) : n < l.length := by
  by_contra hc
  rw [List.getD_eq_default _ _ (Nat.le_of_not_lt hc)] at hg
  exact Option.noConfusion hg

/-- **C7.** For a shared pool entry of a given `(localRank, direction)`
whose refcount is 2: the first `sharedBuffersDestroy` call decrements the
refcount to 1 and frees nothing, and the second call frees exactly that
direction's allocated buffers and — the other direction's refcount being
0 — frees the peer record and clears its `localPeers` entry; when no
peer records remain the `localPeers` array itself is freed, otherwise it
survives with the entry cleared. -/
theorem c7_shared_destroy_refcount (arr : List (Option NcclProxyPeer)) (L : Nat)
    (peer : NcclProxyPeer)
    (hget : arr.getD L none = some peer)
    (hrc : peer.send.refcount = 2) (hsz : peer.send.size ≠ 0)
    (hrecv : peer.recv.refcount = 0) :
    sharedBuffersDestroy (some arr) L 0 =
      (.success,
       some (arr.set L (some { peer with send := { peer.send with refcount := 1 } })),
       freeLogNone) ∧
    ((arr.set L none).any (fun x => x.isSome) = true →
      sharedBuffersDestroy
          (some (arr.set L (some { peer with send := { peer.send with refcount := 1 } }))) L 0 =
        (.success, some (arr.set L none),
         ⟨peer.send.cudaBuff, peer.send.hostBuff, true, false⟩)) ∧
    ((arr.set L none).any (fun x => x.isSome) = false →
      sharedBuffersDestroy
          (some (arr.set L (some { peer with send := { peer.send with refcount := 1 } }))) L 0 =
        (.success, none,
         ⟨peer.send.cudaBuff, peer.send.hostBuff, true, true⟩)) := by
  have hL : L < arr.length := getD_some_lt arr L peer hget
  have hfirst : sharedBuffersDestroy (some arr) L 0 =
      (.success,
       some (arr.set L (some { peer with send := { peer.send with refcount := 1 } })),
       freeLogNone) := by
    simp only [sharedBuffersDestroy, hget]
    norm_num [hsz, hrc]
  have hget2 : (arr.set L (some { peer with send := { peer.send with refcount := 1 } })).getD
      L none = some { peer with send := { peer.send with refcount := 1 } } :=
    getD_set_self arr L _ none hL
  have hsets : ((arr.set L (some { peer with send := { peer.send with refcount := 1 } })).set L
        (some { peer with send := { peer.send with refcount := 1 - 1 } })).set L none =
      arr.set L none := by
    rw [List.set_set, List.set_set]
  refine ⟨hfirst, ?_, ?_⟩
  · intro hany
    simp only [sharedBuffersDestroy, hget2]
    norm_num [hsz, hrecv, List.set_set, hany]
  · intro hany
    simp only [sharedBuffersDestroy, hget2]
    norm_num [hsz, hrecv, List.set_set, hany]

/-- **C7, witness.** The refcount scenario run on a concrete two-entry
pool whose entry 0 holds a send record with refcount 2 and an allocated
device buffer. -/
theorem c7_shared_destroy_refcount_witness :
    sharedBuffersDestroy (some [some ⟨⟨64, 2, true, false⟩, sharedP2pFresh⟩, none]) 0 0 =
      (.success,
       some [some ⟨⟨64, 1, true, false⟩, sharedP2pFresh⟩, none],
       freeLogNone) ∧
    sharedBuffersDestroy (some [some ⟨⟨64, 1, true, false⟩, sharedP2pFresh⟩, none]) 0 0 =
      (.success, none, ⟨true, false, true, true⟩) := by
  have h := c7_shared_destroy_refcount [some ⟨⟨64, 2, true, false⟩, sharedP2pFresh⟩, none] 0
    ⟨⟨64, 2, true, false⟩, sharedP2pFresh⟩ (by rfl) (by rfl) (by norm_num) (by rfl)
  refine ⟨h.1, ?_⟩
  have h2 := h.2.2 (by rfl)
  exact h2

/-- **C5.** When `sendProxyConnect` completes successfully with
`done = 1`, it leaves `sendMem->head` holding `-NCCL_STEPS` as a
`uint64_t` (that is, `2^64 - NCCL_STEPS`) if the connection is shared
and 0 otherwise, and leaves `recvMem->sizesFifo[i] = -1` for every
`i < NCCL_STEPS`. -/
theorem c5_send_connect_memory_init (shared commReady : Bool) (r : Nat × (Nat → Int))
    (h : sendProxyConnectInit shared commReady = some r) :
    (shared = true →
      r.1 = ((-(NCCL_STEPS : Int)) % (2 ^ 64 : Int)).toNat ∧
      r.1 = 2 ^ 64 - NCCL_STEPS) ∧
    (shared = false → r.1 = 0) ∧
    (∀ i, i < NCCL_STEPS → r.2 i = -1) := by
  cases commReady with
  | false => simp [sendProxyConnectInit] at h
  | true =>
    simp only [sendProxyConnectInit] at h
    norm_num at h
    obtain rfl := h.symm
    refine ⟨?_, ?_, ?_⟩
    · intro hs
      subst hs
      exact ⟨rfl, by decide⟩
    · intro hs
      subst hs
      rfl
    · intro i hi
      norm_num [NCCL_STEPS] at hi
      interval_cases i <;> rfl

/-- **C5, witness.** The connect-time initialization evaluated for a
shared connection with the fabric communicator ready, checking
`sizesFifo` at slot 5. -/
theorem c5_send_connect_memory_init_witness :
    (intToUint64 (if true then -(NCCL_STEPS : Int) else 0) =
        ((-(NCCL_STEPS : Int)) % (2 ^ 64 : Int)).toNat ∧
     intToUint64 (if true then -(NCCL_STEPS : Int) else 0) = 2 ^ 64 - NCCL_STEPS) ∧
    initSizesFifo sizesFifoZero 5 = -1 := by
  have h := c5_send_connect_memory_init true true
    (intToUint64 (if true then -(NCCL_STEPS : Int) else 0), initSizesFifo sizesFifoZero)
    (by rfl)
  exact ⟨h.1 rfl, h.2.2 5 (by norm_num [NCCL_STEPS])⟩

/-- If `a < b` and both are multiples of `k`, then `a + k ≤ b`. -/
theorem dvd_add_le {k a b : Nat} (hab : a < b) (ha : k ∣ a) (hb : k ∣ b) :
    a + k ≤ b := by
  obtain ⟨x, rfl⟩ := ha
  obtain ⟨y, rfl⟩ := hb
  rcases Nat.eq_zero_or_pos k with hk | hk
  · subst hk
    simp at hab
  · have hxy : x < y := Nat.lt_of_mul_lt_mul_left hab
    have h2 : k * (x + 1) ≤ k * y := Nat.mul_le_mul_left k (Nat.succ_le_of_lt hxy)
    rw [Nat.mul_succ] at h2
    exact h2

theorem sendStep_inv (P : SendParams) (c : SendCursors) (a : SendAct)
    (h : SendInv P.sliceSteps c) : SendInv P.sliceSteps (sendStep P c a) := by
  obtain ⟨h1, h2, h3, h4, h5⟩ := h
  cases a with
  | post =>
    simp only [sendStep]
    split
    next hc =>
      exact ⟨h1, Nat.le_trans h2 (Nat.le_add_right _ _),
        Dvd.dvd.add h3 (dvd_refl _), h4, h5⟩
    next => exact ⟨h1, h2, h3, h4, h5⟩
  | transmit dataReady isendOk =>
    simp only [sendStep]
    split
    next hc =>
      exact ⟨Nat.le_trans h1 (Nat.le_add_right _ _), dvd_add_le hc.1 h4 h3,
        h3, Dvd.dvd.add h4 (dvd_refl _), h5⟩
    next => exact ⟨h1, h2, h3, h4, h5⟩
  | reap testDone =>
    simp only [sendStep]
    split
    next hc =>
      exact ⟨dvd_add_le hc.1 h5 h4, h2, h3, h4, Dvd.dvd.add h5 (dvd_refl _)⟩
    next => exact ⟨h1, h2, h3, h4, h5⟩

theorem sendReach_inv (P : SendParams) (c : SendCursors) (h : SendReach P c) :
    SendInv P.sliceSteps c := by
  induction h with
  | init => exact ⟨Nat.le_refl _, Nat.le_refl _, dvd_zero _, dvd_zero _, dvd_zero _⟩
  | step c a _ ih => exact sendStep_inv P c a ih

theorem sendStep_le (P : SendParams) (c : SendCursors) (a : SendAct) :
    sendCursorsLE c (sendStep P c a) := by
  cases a <;> (simp only [sendStep]; split) <;>
    exact ⟨by simp, by simp, by simp⟩

/-- The credit gate does not look at `shared`: the cursor effect of every
action is the same for a shared and a non-shared connection. -/
theorem sendStep_shared_independent (Q : SendParams) (d : SendCursors) (a : SendAct) :
    sendStep { Q with shared := true } d a = sendStep { Q with shared := false } d a := by
  cases a <;> rfl

/-- Reachable send states satisfy `posted ≤ done + maxDepth + sliceSteps - 1`,
and `posted ≤ done + maxDepth` when `sliceSteps` divides `maxDepth`. -/
theorem sendReach_posted_bound (P : SendParams) (c : SendCursors) (h : SendReach P c) :
    c.posted ≤ c.done + P.maxDepth + P.sliceSteps - 1 ∧
    (P.sliceSteps ∣ P.maxDepth → c.posted ≤ c.done + P.maxDepth) := by
  induction h with
  | init => exact ⟨Nat.zero_le _, fun _ => Nat.zero_le _⟩
  | step c a hc ih =>
    have hinv := sendReach_inv P c hc
    obtain ⟨ihw, ihd⟩ := ih
    cases a with
    | post =>
      simp only [sendStep]
      split
      next hcond =>
        obtain ⟨hc1, hc2⟩ := hcond
        refine ⟨?_, fun hdvd => ?_⟩
        · show c.posted + P.sliceSteps ≤ c.done + P.maxDepth + P.sliceSteps - 1
          omega
        · have hdone : P.sliceSteps ∣ c.done + P.maxDepth :=
            Dvd.dvd.add hinv.2.2.2.2 hdvd
          show c.posted + P.sliceSteps ≤ c.done + P.maxDepth
          exact dvd_add_le hc2 hinv.2.2.1 hdone
      next => exact ⟨ihw, ihd⟩
    | transmit dataReady isendOk =>
      simp only [sendStep]
      split
      next => exact ⟨ihw, ihd⟩
      next => exact ⟨ihw, ihd⟩
    | reap testDone =>
      simp only [sendStep]
      split
      next =>
        refine ⟨?_, fun hdvd => ?_⟩
        · show c.posted ≤ c.done + P.sliceSteps + P.maxDepth + P.sliceSteps - 1
          omega
        · have := ihd hdvd
          show c.posted ≤ c.done + P.sliceSteps + P.maxDepth
          omega
      next => exact ⟨ihw, ihd⟩

/-- **C10, counterexample.** With `nsubs = 3` (so
`maxDepth = min(NCCL_STEPS, NCCL_SHARED_STEPS/3) = 5`) and
`sliceSteps = 2`, a non-shared sub reaches `posted = 6, done = 0` after
three credit grants — more than `NCCL_SHARED_STEPS / 3 = 5` steps
posted beyond `done`, refuting the claimed bound. -/
theorem c10_posted_bound_counterexample :
    NCCL_SHARED_STEPS / NCCL_STEPS < 3 ∧
    SendReach ⟨false, 8, 2, min NCCL_STEPS (NCCL_SHARED_STEPS / 3)⟩ ⟨6, 0, 0⟩ ∧
    ¬ (6 ≤ 0 + NCCL_SHARED_STEPS / 3) := by
  refine ⟨by decide, ?_, by decide⟩
  exact SendReach.step _ SendAct.post
    (SendReach.step _ SendAct.post
      (SendReach.step _ SendAct.post SendReach.init))

/-- **C10, amended.** The credit gate `posted < done + maxDepth` (with
`maxDepth = min(NCCL_STEPS, NCCL_SHARED_STEPS/nsubs)`) is applied to
every sub regardless of whether the connection is shared — the cursor
effect of each action is independent of the `shared` flag. Consequently
every reachable state satisfies
`posted ≤ done + maxDepth + sliceSteps - 1`, and
`posted ≤ done + maxDepth` exactly when `sliceSteps` divides `maxDepth`
(which fails for, e.g., `nsubs = 3, sliceSteps = 2`). -/
theorem c10_credit_gate (P : SendParams) (c : SendCursors) (h : SendReach P c) :
    (∀ (Q : SendParams) (d : SendCursors) (a : SendAct),
      sendStep { Q with shared := true } d a = sendStep { Q with shared := false } d a) ∧
    c.posted ≤ c.done + P.maxDepth + P.sliceSteps - 1 ∧
    (P.sliceSteps ∣ P.maxDepth → c.posted ≤ c.done + P.maxDepth) := by
  have hb := sendReach_posted_bound P c h
  exact ⟨sendStep_shared_independent, hb.1, hb.2⟩

/-- **C10, amended, witness.** The gate facts at the state reached by one
credit grant under `maxDepth = 4, sliceSteps = 2`. -/
theorem c10_credit_gate_witness :
    sendStep ⟨true, 8, 2, 4⟩ ⟨2, 0, 0⟩ SendAct.post =
      sendStep ⟨false, 8, 2, 4⟩ ⟨2, 0, 0⟩ SendAct.post ∧
    (2 : Nat) ≤ 0 + 4 + 2 - 1 ∧ ((2 : Nat) ∣ 4 → (2 : Nat) ≤ 0 + 4) := by
  have h := c10_credit_gate ⟨false, 8, 2, 4⟩
    (sendStep ⟨false, 8, 2, 4⟩ ⟨0, 0, 0⟩ SendAct.post)
    (SendReach.step _ SendAct.post SendReach.init)
  exact ⟨h.1 ⟨true, 8, 2, 4⟩ ⟨2, 0, 0⟩ SendAct.post, h.2.1, h.2.2⟩

theorem recvDoneLoop_ge (slice nsteps base head transmitted : Nat) :
    ∀ (fuel d : Nat), d ≤ recvDoneLoop slice nsteps base head transmitted fuel d := by
  intro fuel
  induction fuel with
  | zero => intro d; exact le_refl _
  | succ fuel ih =>
    intro d
    simp only [recvDoneLoop]
    split
    next =>
      split
      next => exact Nat.le_add_right _ _
      next => exact Nat.le_trans (Nat.le_add_right _ _) (ih (d + slice))
    next => exact le_refl _

theorem recvDoneLoop_bounds (slice nsteps base head transmitted : Nat) :
    ∀ (fuel d : Nat), d ≤ transmitted → slice ∣ d → slice ∣ transmitted →
      recvDoneLoop slice nsteps base head transmitted fuel d ≤ transmitted ∧
      slice ∣ recvDoneLoop slice nsteps base head transmitted fuel d := by
  intro fuel
  induction fuel with
  | zero => intro d hd hdd _; exact ⟨hd, hdd⟩
  | succ fuel ih =>
    intro d hd hdd hdt
    simp only [recvDoneLoop]
    split
    next hguard =>
      have hd' : d + slice ≤ transmitted := dvd_add_le hguard.2 hdd hdt
      have hdd' : slice ∣ d + slice := Dvd.dvd.add hdd (dvd_refl _)
      split
      next => exact ⟨hd', hdd'⟩
      next => exact ih (d + slice) hd' hdd' hdt
    next => exact ⟨hd, hdd⟩

theorem forallTwo_mem_right {α β : Type} {R : α → β → Prop} :
    ∀ {l : List α} {l' : List β}, List.Forall₂ R l l' → ∀ b ∈ l', ∃ a ∈ l, R a b := by
  intro l l' h
  induction h with
  | nil => intro b hb; exact absurd hb (List.not_mem_nil b)
  | @cons a b l₁ l₂ hr _ ih =>
    intro c hc
    rcases List.mem_cons.mp hc with hc | hc
    · exact ⟨a, List.mem_cons_self a l₁, hc ▸ hr⟩
    · obtain ⟨x, hx, hrx⟩ := ih c hc
      exact ⟨x, List.mem_cons_of_mem a hx, hrx⟩

theorem forallTwo_map_self {R : RSub → RSub → Prop} (f : RSub → RSub)
    (hf : ∀ x, R x (f x)) : ∀ g : List RSub, List.Forall₂ R g (g.map f) := by
  intro g
  induction g with
  | nil => exact List.Forall₂.nil
  | cons x rest ih => exact List.Forall₂.cons (hf x) ih

theorem forallTwo_self {R : RSub → RSub → Prop}
    (hf : ∀ x, R x x) : ∀ g : List RSub, List.Forall₂ R g g := by
  intro g
  induction g with
  | nil => exact List.Forall₂.nil
  | cons x rest ih => exact List.Forall₂.cons (hf x) ih

/-- Pointwise description of action D: `posted/received/transmitted` are
untouched and `done` only moves forward, staying at most `transmitted`
and a multiple of `sliceSteps` whenever it was. -/
theorem recvReleaseAux_rel (slice : Nat) (heads : Nat → Nat) :
    ∀ (g : List RSub) (i : Nat),
      List.Forall₂ (fun sub sub' =>
        sub'.posted = sub.posted ∧ sub'.received = sub.received ∧
        sub'.transmitted = sub.transmitted ∧ sub.done ≤ sub'.done ∧
        (slice ∣ sub.done → slice ∣ sub.transmitted → sub.done ≤ sub.transmitted →
          sub'.done ≤ sub.transmitted ∧ slice ∣ sub'.done))
        g (recvReleaseAux slice heads i g) := by
  intro g
  induction g with
  | nil => intro i; exact List.Forall₂.nil
  | cons sub rest ih =>
    intro i
    refine List.Forall₂.cons ?_ (ih (i + 1))
    show _ ∧ _ ∧ _ ∧ _ ∧ _
    by_cases h1 : sub.done = sub.nsteps
    · rw [if_pos h1]
      exact ⟨rfl, rfl, rfl, le_refl _, fun hdd _ hle => ⟨hle, hdd⟩⟩
    · by_cases h2 : sub.done < sub.transmitted
      · rw [if_neg h1, if_pos h2]
        refine ⟨rfl, rfl, rfl, recvDoneLoop_ge _ _ _ _ _ _ _, fun hdd hdt _ => ?_⟩
        exact recvDoneLoop_bounds slice sub.nsteps sub.base (heads i) sub.transmitted
          (sub.transmitted + 1) sub.done (Nat.le_of_lt h2) hdd hdt
      · rw [if_neg h1, if_neg h2]
        exact ⟨rfl, rfl, rfl, le_refl _, fun hdd _ hle => ⟨hle, hdd⟩⟩

theorem recvStep_pres (maxDepth slice : Nat) (g : List RSub) (a : RecvAct)
    (hinv : RecvInv slice g) (hlock : RecvLock g) :
    RecvInv slice (recvStep maxDepth slice g a) ∧
    RecvLock (recvStep maxDepth slice g a) := by
  cases a with
  | post irecvOk =>
    simp only [recvStep, recvPost]
    split
    next =>
      constructor
      · intro sub' hmem
        obtain ⟨sub, hsub, rfl⟩ := List.mem_map.mp hmem
        obtain ⟨i1, i2, i3, i4, i5, i6, i7⟩ := hinv sub hsub
        exact ⟨i1, i2, Nat.le_trans i3 (Nat.le_add_right _ _),
          Dvd.dvd.add i4 (dvd_refl _), i5, i6, i7⟩
      · intro s' hs' t' ht'
        obtain ⟨s, hs, rfl⟩ := List.mem_map.mp hs'
        obtain ⟨t, ht, rfl⟩ := List.mem_map.mp ht'
        obtain ⟨l1, l2, l3⟩ := hlock s hs t ht
        exact ⟨by simp [l1], by simp [l2], by simp [l3]⟩
    next => exact ⟨hinv, hlock⟩
  | flushTest testDone =>
    match g, hinv, hlock with
    | [], hinv, hlock =>
      exact ⟨fun sub h => absurd h (List.not_mem_nil sub),
        fun s h => absurd h (List.not_mem_nil s)⟩
    | leader :: rest, hinv, hlock =>
      simp only [recvStep, recvFlushTest]
      split
      next hguard =>
        constructor
        · intro sub' hmem
          obtain ⟨sub, hsub, rfl⟩ := List.mem_map.mp hmem
          obtain ⟨i1, i2, i3, i4, i5, i6, i7⟩ := hinv sub hsub
          obtain ⟨l1, l2, l3⟩ := hlock sub hsub leader (List.mem_cons_self _ _)
          have hlt : sub.received < sub.posted := by
            rw [l2, l1]
            exact hguard.1
          exact ⟨i1, Nat.le_trans i2 (Nat.le_add_right _ _),
            dvd_add_le hlt i5 i4, i4, Dvd.dvd.add i5 (dvd_refl _), i6, i7⟩
        · intro s' hs' t' ht'
          obtain ⟨s, hs, rfl⟩ := List.mem_map.mp hs'
          obtain ⟨t, ht, rfl⟩ := List.mem_map.mp ht'
          obtain ⟨l1, l2, l3⟩ := hlock s hs t ht
          exact ⟨by simp [l1], by simp [l2], by simp [l3]⟩
      next => exact ⟨hinv, hlock⟩
  | commit testDone =>
    match g, hinv, hlock with
    | [], hinv, hlock =>
      exact ⟨fun sub h => absurd h (List.not_mem_nil sub),
        fun s h => absurd h (List.not_mem_nil s)⟩
    | leader :: rest, hinv, hlock =>
      simp only [recvStep, recvCommit]
      split
      next hguard =>
        constructor
        · intro sub' hmem
          obtain ⟨sub, hsub, rfl⟩ := List.mem_map.mp hmem
          obtain ⟨i1, i2, i3, i4, i5, i6, i7⟩ := hinv sub hsub
          obtain ⟨l1, l2, l3⟩ := hlock sub hsub leader (List.mem_cons_self _ _)
          have hlt : sub.transmitted < sub.received := by
            rw [l3, l2]
            exact hguard.1
          exact ⟨Nat.le_trans i1 (Nat.le_add_right _ _), dvd_add_le hlt i6 i5,
            i3, i4, i5, Dvd.dvd.add i6 (dvd_refl _), i7⟩
        · intro s' hs' t' ht'
          obtain ⟨s, hs, rfl⟩ := List.mem_map.mp hs'
          obtain ⟨t, ht, rfl⟩ := List.mem_map.mp ht'
          obtain ⟨l1, l2, l3⟩ := hlock s hs t ht
          exact ⟨by simp [l1], by simp [l2], by simp [l3]⟩
      next => exact ⟨hinv, hlock⟩
  | release heads =>
    have hrel := recvReleaseAux_rel slice heads g 0
    constructor
    · intro sub' hmem
      obtain ⟨sub, hsub, hr⟩ := forallTwo_mem_right hrel sub' hmem
      obtain ⟨i1, i2, i3, i4, i5, i6, i7⟩ := hinv sub hsub
      obtain ⟨r1, r2, r3, r4, r5⟩ := hr
      obtain ⟨rb1, rb2⟩ := r5 i7 i6 i1
      exact ⟨by rw [r3]; exact rb1, by rw [r3, r2]; exact i2, by rw [r2, r1]; exact i3,
        by rw [r1]; exact i4, by rw [r2]; exact i5, by rw [r3]; exact i6, rb2⟩
    · intro s' hs' t' ht'
      obtain ⟨s, hs, hrs⟩ := forallTwo_mem_right hrel s' hs'
      obtain ⟨t, ht, hrt⟩ := forallTwo_mem_right hrel t' ht'
      obtain ⟨l1, l2, l3⟩ := hlock s hs t ht
      exact ⟨by rw [hrs.1, hrt.1, l1], by rw [hrs.2.1, hrt.2.1, l2],
        by rw [hrs.2.2.1, hrt.2.2.1, l3]⟩

theorem recvReach_invLock (maxDepth slice : Nat) (g0 g : List RSub)
    (h : RecvReach maxDepth slice g0 g) : RecvInv slice g ∧ RecvLock g := by
  induction h with
  | init hz =>
    constructor
    · intro sub hsub
      obtain ⟨z1, z2, z3, z4⟩ := hz sub hsub
      rw [z1, z2, z3, z4]
      exact ⟨le_refl _, le_refl _, le_refl _, dvd_zero _, dvd_zero _, dvd_zero _, dvd_zero _⟩
    · intro s hs t ht
      obtain ⟨s1, s2, s3, _⟩ := hz s hs
      obtain ⟨t1, t2, t3, _⟩ := hz t ht
      rw [s1, s2, s3, t1, t2, t3]
      exact ⟨rfl, rfl, rfl⟩
  | step g a _ ih => exact recvStep_pres maxDepth slice g a ih.1 ih.2

theorem recvStep_le (maxDepth slice : Nat) (g : List RSub) (a : RecvAct) :
    recvCursorsLE g (recvStep maxDepth slice g a) := by
  cases a with
  | post irecvOk =>
    simp only [recvStep, recvPost]
    split
    next => exact forallTwo_map_self _ (fun x => ⟨Nat.le_add_right _ _, le_refl _, le_refl _, le_refl _⟩) g
    next => exact forallTwo_self (fun x => ⟨le_refl _, le_refl _, le_refl _, le_refl _⟩) g
  | flushTest testDone =>
    match g with
    | [] => exact List.Forall₂.nil
    | leader :: rest =>
      simp only [recvStep, recvFlushTest]
      split
      next => exact forallTwo_map_self _ (fun x => ⟨le_refl _, Nat.le_add_right _ _, le_refl _, le_refl _⟩) _
      next => exact forallTwo_self (fun x => ⟨le_refl _, le_refl _, le_refl _, le_refl _⟩) _
  | commit testDone =>
    match g with
    | [] => exact List.Forall₂.nil
    | leader :: rest =>
      simp only [recvStep, recvCommit]
      split
      next => exact forallTwo_map_self _ (fun x => ⟨le_refl _, le_refl _, Nat.le_add_right _ _, le_refl _⟩) _
      next => exact forallTwo_self (fun x => ⟨le_refl _, le_refl _, le_refl _, le_refl _⟩) _
  | release heads =>
    refine List.Forall₂.imp ?_ (recvReleaseAux_rel slice heads g 0)
    intro s s' hr
    exact ⟨Nat.le_of_eq hr.1.symm, Nat.le_of_eq hr.2.1.symm,
      Nat.le_of_eq hr.2.2.1.symm, hr.2.2.2.1⟩

/-- **C1.** For every sub of a proxy op, at every point reachable from
the `Ready` reset through any sequence of progress actions (hence after
every single action within a call and between any two calls of
`sendProxyProgress`/`recvProxyProgress`): on the send side
`posted ≥ transmitted ≥ done`, on the recv side
`posted ≥ received ≥ transmitted ≥ done`, all cursors are multiples of
`sliceSteps`, and every action moves every cursor only forward. -/
theorem c1_cursor_contract :
    (∀ (P : SendParams) (c : SendCursors), SendReach P c → SendInv P.sliceSteps c) ∧
    (∀ (P : SendParams) (c : SendCursors) (a : SendAct),
      sendCursorsLE c (sendStep P c a)) ∧
    (∀ (maxDepth slice : Nat) (g0 g : List RSub),
      RecvReach maxDepth slice g0 g → RecvInv slice g) ∧
    (∀ (maxDepth slice : Nat) (g : List RSub) (a : RecvAct),
      recvCursorsLE g (recvStep maxDepth slice g a)) :=
  ⟨sendReach_inv, sendStep_le,
   fun maxDepth slice g0 g h => (recvReach_invLock maxDepth slice g0 g h).1,
   recvStep_le⟩

/-- **C1, witness.** The contract evaluated on concrete states: a send
sub after one posted slice (`sliceSteps = 2`), and a two-member recv
group at the `Ready` reset followed by one fused `irecv`. -/
theorem c1_cursor_contract_witness :
    SendInv 2 (sendStep ⟨false, 4, 2, 4⟩ ⟨0, 0, 0⟩ SendAct.post) ∧
    sendCursorsLE ⟨2, 0, 0⟩ (sendStep ⟨false, 4, 2, 4⟩ ⟨2, 0, 0⟩ SendAct.post) ∧
    RecvInv 2 (recvStep 4 2 [⟨0, 2, 0, 0, 4, 2, 0, 0, 0, 0, 0⟩, ⟨0, 2, 0, 0, 4, 2, 0, 0, 0, 0, 0⟩] (RecvAct.post true)) ∧
    recvCursorsLE [⟨0, 2, 0, 0, 4, 2, 0, 0, 0, 0, 0⟩, ⟨0, 2, 0, 0, 4, 2, 0, 0, 0, 0, 0⟩]
      (recvStep 4 2 [⟨0, 2, 0, 0, 4, 2, 0, 0, 0, 0, 0⟩, ⟨0, 2, 0, 0, 4, 2, 0, 0, 0, 0, 0⟩] (RecvAct.post true)) := by
  refine ⟨?_, ?_, ?_, ?_⟩
  · exact c1_cursor_contract.1 ⟨false, 4, 2, 4⟩ _
      (SendReach.step _ SendAct.post SendReach.init)
  · exact c1_cursor_contract.2.1 ⟨false, 4, 2, 4⟩ ⟨2, 0, 0⟩ SendAct.post
  · exact c1_cursor_contract.2.2.1 4 2 [⟨0, 2, 0, 0, 4, 2, 0, 0, 0, 0, 0⟩, ⟨0, 2, 0, 0, 4, 2, 0, 0, 0, 0, 0⟩] _
      (RecvReach.step _ (RecvAct.post true) (RecvReach.init (by decide)))
  · exact c1_cursor_contract.2.2.2 4 2 [⟨0, 2, 0, 0, 4, 2, 0, 0, 0, 0, 0⟩, ⟨0, 2, 0, 0, 4, 2, 0, 0, 0, 0, 0⟩]
      (RecvAct.post true)

/-- **C2, counterexample.** For a one-sub op with `nsteps = 0` (state
`Ready`, `args->done = 0`), one progress call makes no fabric call but
leaves the op in `Progress`, not `None`: `args->done` is never
incremented because a sub with `done == nsteps` is skipped before the
completion bookkeeping, so the claimed `Ready → None` transition never
happens — on the send side and on the recv side alike. -/
theorem c2_nsteps_zero_counterexample :
    (sendProxyProgressModel c2SendEnv c2SendOp).2 = [] ∧
    (sendProxyProgressModel c2SendEnv c2SendOp).1.state = OpState.opProgress ∧
    ¬ (sendProxyProgressModel c2SendEnv c2SendOp).1.state = OpState.opNone ∧
    (recvProxyProgressModel c2RecvEnv c2RecvOp).2 = [] ∧
    (recvProxyProgressModel c2RecvEnv c2RecvOp).1.state = OpState.opProgress ∧
    ¬ (recvProxyProgressModel c2RecvEnv c2RecvOp).1.state = OpState.opNone := by
  decide

theorem sendSubProgress_skip (maxDepth slice : Nat) (env : SendEnv) (i : Nat)
    (sub : SendSubFull) (h : sub.done = sub.nsteps) :
    sendSubProgress maxDepth slice env i sub = (sub, 0, []) := by
  simp [sendSubProgress, h]

theorem sendSubsRun_skip (maxDepth slice : Nat) (env : SendEnv) :
    ∀ (subs : List SendSubFull) (i : Nat), (∀ sub ∈ subs, sub.done = sub.nsteps) →
      sendSubsRun maxDepth slice env i subs = (subs, 0, []) := by
  intro subs
  induction subs with
  | nil => intro i _; rfl
  | cons sub rest ih =>
    intro i hall
    simp only [sendSubsRun]
    rw [sendSubProgress_skip maxDepth slice env i sub (hall sub (List.mem_cons_self _ _)),
      ih (i + 1) (fun s hs => hall s (List.mem_cons_of_mem _ hs))]
    rfl

/-- A send op sitting in `Progress` with every sub finished
(`done == nsteps`) is a fixed point: the call performs no fabric call
and leaves the op unchanged (in particular it never reaches `None`,
because `args->done` stays below `nsubs`). -/
theorem sendProgress_fix (env : SendEnv) (args : SendArgs)
    (hstate : args.state = OpState.opProgress) (hdone : args.done = 0)
    (hne : args.subs ≠ []) (hall : ∀ sub ∈ args.subs, sub.done = sub.nsteps) :
    sendProxyProgressModel env args = (args, []) := by
  obtain ⟨st, subs, dn, sl, ch⟩ := args
  simp only at hstate hdone hne hall
  subst hstate
  subst hdone
  have hlen : subs.length ≠ 0 := by
    intro hc
    exact hne (List.length_eq_zero.mp hc)
  simp only [sendProxyProgressModel]
  simp [sendSubsRun_skip _ _ env subs 0 hall, hlen]
  omega

/-- From `Ready`, a send op whose subs all have `nsteps = 0` performs no
fabric call and lands in `Progress` with all cursors reset. -/
theorem sendProgress_ready_zero (env : SendEnv) (args : SendArgs)
    (hstate : args.state = OpState.opReady) (hdone : args.done = 0)
    (hne : args.subs ≠ []) (hall : ∀ sub ∈ args.subs, sub.nsteps = 0) :
    sendProxyProgressModel env args =
      ({ args with
         subs := args.subs.map (fun sub =>
           { sub with
             base := roundUp sub.step args.chunkSteps
             posted := 0
             transmitted := 0
             done := 0 })
         state := OpState.opProgress }, []) := by
  obtain ⟨st, subs, dn, sl, ch⟩ := args
  simp only at hstate hdone hne hall
  subst hstate
  subst hdone
  have hlen : subs.length ≠ 0 := by
    intro hc
    exact hne (List.length_eq_zero.mp hc)
  have hall2 : ∀ sub' ∈ subs.map (fun sub =>
      ({ sub with base := roundUp sub.step ch, posted := 0, transmitted := 0, done := 0 } : SendSubFull)),
      sub'.done = sub'.nsteps := by
    intro sub' hmem
    obtain ⟨sub, hsub, rfl⟩ := List.mem_map.mp hmem
    simp [hall sub hsub]
  simp only [sendProxyProgressModel]
  simp [sendSubsRun_skip _ _ env _ 0 hall2, hlen]
  omega

theorem aset_size (a : Array RSub) (i : Nat) (v : RSub) : (aset a i v).size = a.size := by
  unfold aset
  split
  · exact Array.size_set a _ v
  · rfl

theorem aget_eq (a : Array RSub) (i : Nat) (h : i < a.size) : aget a i = a[i] := by
  unfold aget
  simp [Array.getD, h, Array.get_eq_getElem]

theorem aget_default (a : Array RSub) (i : Nat) (h : ¬ i < a.size) : aget a i = default := by
  unfold aget
  simp [Array.getD, h]

theorem aget_aset_self (a : Array RSub) (i : Nat) (v : RSub) (h : i < a.size) :
    aget (aset a i v) i = v := by
  unfold aset
  rw [dif_pos h]
  have hs : i < (a.set ⟨i, h⟩ v).size := by rw [Array.size_set]; exact h
  rw [aget_eq _ _ hs, Array.getElem_set]
  simp

theorem aget_aset_ne (a : Array RSub) (i j : Nat) (v : RSub) (h : j ≠ i) :
    aget (aset a i v) j = aget a j := by
  unfold aset
  split
  next hi =>
    by_cases hj : j < a.size
    · have hs : j < (a.set ⟨i, hi⟩ v).size := by rw [Array.size_set]; exact hj
      rw [aget_eq _ _ hs, aget_eq _ _ hj, Array.getElem_set]
      exact if_neg (fun hc => h (by simpa using hc.symm))
    · have hs : ¬ j < (a.set ⟨i, hi⟩ v).size := by rw [Array.size_set]; exact hj
      rw [aget_default _ _ hs, aget_default _ _ hj]
  next => rfl

theorem aswap_size (a : Array RSub) (i j : Nat) : (aswap a i j).size = a.size := by
  unfold aswap
  split
  · exact Array.size_swap a _ _
  · rfl

theorem aget_aswap_ne (a : Array RSub) (i j k : Nat) (hki : k ≠ i) (hkj : k ≠ j) :
    aget (aswap a i j) k = aget a k := by
  unfold aswap
  split
  next hij =>
    by_cases hk : k < a.size
    · have hs : k < (a.swap ⟨i, hij.1⟩ ⟨j, hij.2⟩).size := by
        rw [Array.size_swap]; exact hk
      rw [aget_eq _ _ hs, aget_eq _ _ hk, Array.getElem_swap, if_neg hki, if_neg hkj]
    · have hs : ¬ k < (a.swap ⟨i, hij.1⟩ ⟨j, hij.2⟩).size := by
        rw [Array.size_swap]; exact hk
      rw [aget_default _ _ hs, aget_default _ _ hk]
  next => rfl

theorem aget_aswap_cases (a : Array RSub) (i j k : Nat) :
    aget (aswap a i j) k = aget a k ∨ aget (aswap a i j) k = aget a i ∨
    aget (aswap a i j) k = aget a j := by
  unfold aswap
  split
  next hij =>
    by_cases hk : k < a.size
    · have hs : k < (a.swap ⟨i, hij.1⟩ ⟨j, hij.2⟩).size := by
        rw [Array.size_swap]; exact hk
      rw [aget_eq _ _ hs, Array.getElem_swap]
      by_cases h1 : k = i
      · right; right; rw [if_pos h1, aget_eq _ _ hij.2]; rfl
      · by_cases h2 : k = j
        · right; left; rw [if_neg h1, if_pos h2, aget_eq _ _ hij.1]; rfl
        · left; rw [if_neg h1, if_neg h2, aget_eq _ _ hk]
    · left
      have hs : ¬ k < (a.swap ⟨i, hij.1⟩ ⟨j, hij.2⟩).size := by
        rw [Array.size_swap]; exact hk
      rw [aget_default _ _ hs, aget_default _ _ hk]
  next => left; rfl

theorem findSameComm_ge (subs : Array RSub) (comm : Nat) :
    ∀ (fuel next : Nat), next ≤ findSameComm subs comm fuel next ∨
      findSameComm subs comm fuel next = subs.size := by
  intro fuel
  induction fuel with
  | zero => intro next; exact Or.inl (le_refl _)
  | succ fuel ih =>
    intro next
    simp only [findSameComm]
    split
    next =>
      split
      next => exact Or.inl (le_refl _)
      next =>
        rcases ih (next + 1) with h | h
        · exact Or.inl (Nat.le_trans (Nat.le_succ _) h)
        · exact Or.inr h
    next => exact Or.inr rfl

theorem setGroupSizesAux_size :
    ∀ (c : Nat) (subs : Array RSub) (s g i : Nat),
      (setGroupSizesAux subs s g i c).size = subs.size := by
  intro c
  induction c with
  | zero => intro subs s g i; rfl
  | succ c ih =>
    intro subs s g i
    simp only [setGroupSizesAux]
    rw [ih, aset_size]

/-- `sub[-i].groupSize = groupSize` writes only the `groupSize` field:
all other fields of every element are untouched. -/
theorem setGroupSizesAux_fields :
    ∀ (c : Nat) (subs : Array RSub) (s g i j : Nat),
      (aget (setGroupSizesAux subs s g i c) j).nsteps = (aget subs j).nsteps ∧
      (aget (setGroupSizesAux subs s g i c) j).posted = (aget subs j).posted ∧
      (aget (setGroupSizesAux subs s g i c) j).received = (aget subs j).received ∧
      (aget (setGroupSizesAux subs s g i c) j).transmitted = (aget subs j).transmitted ∧
      (aget (setGroupSizesAux subs s g i c) j).done = (aget subs j).done := by
  intro c
  induction c with
  | zero => intro subs s g i j; exact ⟨rfl, rfl, rfl, rfl, rfl⟩
  | succ c ih =>
    intro subs s g i j
    simp only [setGroupSizesAux]
    obtain ⟨f1, f2, f3, f4, f5⟩ :=
      ih (aset subs (s - i) { aget subs (s - i) with groupSize := g }) s g (i + 1) j
    rw [f1, f2, f3, f4, f5]
    by_cases hj : j = s - i
    · by_cases hb : s - i < subs.size
      · rw [hj, aget_aset_self subs (s - i) _ hb]
        exact ⟨rfl, rfl, rfl, rfl, rfl⟩
      · unfold aset
        rw [dif_neg hb]
        exact ⟨rfl, rfl, rfl, rfl, rfl⟩
    · rw [aget_aset_ne subs (s - i) j _ hj]
      exact ⟨rfl, rfl, rfl, rfl, rfl⟩

theorem regroupSelect_fst_size (subs : Array RSub) (s gsz mr cm : Nat) :
    (regroupSelect subs s gsz mr cm).1.size = subs.size := by
  unfold regroupSelect
  dsimp only
  split
  next => rfl
  next =>
    split
    next =>
      split
      next => rfl
      next =>
        split
        next => rw [aswap_size]
        next => rfl
    next => rfl

theorem regroupBody_fst_size (chunkSteps : Nat) (subs : Array RSub) (s gsz mr cm : Nat) :
    (regroupBody chunkSteps subs s gsz mr cm).1.size = subs.size := by
  unfold regroupBody setGroupSizes
  rw [setGroupSizesAux_size, aset_size, regroupSelect_fst_size]

theorem regroupLoop_size (chunkSteps : Nat) :
    ∀ (fuel : Nat) (subs : Array RSub) (s gsz mr cm : Nat),
      (regroupLoop chunkSteps fuel subs s gsz mr cm).size = subs.size := by
  intro fuel
  induction fuel with
  | zero => intro subs s gsz mr cm; rfl
  | succ fuel ih =>
    intro subs s gsz mr cm
    simp only [regroupLoop]
    split
    next => rw [ih, regroupBody_fst_size]
    next => rfl

theorem aget_aset_cases (a : Array RSub) (i : Nat) (v : RSub) (j : Nat) :
    aget (aset a i v) j = aget a j ∨ aget (aset a i v) j = v := by
  by_cases hj : j = i
  · subst hj
    by_cases hb : j < a.size
    · exact Or.inr (aget_aset_self a j v hb)
    · left
      unfold aset
      rw [dif_neg hb]
  · exact Or.inl (aget_aset_ne a i j v hj)

theorem regroupSelect_fst_cases (subs : Array RSub) (s gsz mr cm : Nat) :
    (regroupSelect subs s gsz mr cm).1 = subs ∨
    ∃ next, s ≤ next ∧ (regroupSelect subs s gsz mr cm).1 = aswap subs s next := by
  unfold regroupSelect
  dsimp only
  split
  next => exact Or.inl rfl
  next =>
    split
    next =>
      split
      next => exact Or.inl rfl
      next hne =>
        split
        next =>
          right
          refine ⟨findSameComm subs cm (subs.size + 1) s, ?_, rfl⟩
          rcases findSameComm_ge subs cm (subs.size + 1) s with h | h
          · exact h
          · exact absurd h hne
        next => exact Or.inl rfl
    next => exact Or.inl rfl

theorem regroupSelect_nsteps (subs : Array RSub) (s gsz mr cm : Nat)
    (h : ∀ k, (aget subs k).nsteps = 0) :
    ∀ k, (aget (regroupSelect subs s gsz mr cm).1 k).nsteps = 0 := by
  intro k
  rcases regroupSelect_fst_cases subs s gsz mr cm with hc | ⟨next, _, hc⟩
  · rw [hc]; exact h k
  · rw [hc]
    rcases aget_aswap_cases subs s next k with h2 | h2 | h2 <;> rw [h2]
    · exact h k
    · exact h s
    · exact h next

theorem regroupSelect_front (subs : Array RSub) (s gsz mr cm : Nat) (j : Nat) (hj : j < s) :
    aget (regroupSelect subs s gsz mr cm).1 j = aget subs j := by
  rcases regroupSelect_fst_cases subs s gsz mr cm with hc | ⟨next, hnext, hc⟩
  · rw [hc]
  · rw [hc]
    exact aget_aswap_ne subs s next j (Nat.ne_of_lt hj) (by omega)

theorem regroupBody_nsteps (chunkSteps : Nat) (subs : Array RSub) (s gsz mr cm : Nat)
    (h : ∀ k, (aget subs k).nsteps = 0) :
    ∀ k, (aget (regroupBody chunkSteps subs s gsz mr cm).1 k).nsteps = 0 := by
  intro k
  unfold regroupBody setGroupSizes
  dsimp only
  rw [(setGroupSizesAux_fields _ _ _ _ _ k).1]
  rcases aget_aset_cases (regroupSelect subs s gsz mr cm).1 s _ k with h2 | h2 <;> rw [h2]
  · exact regroupSelect_nsteps subs s gsz mr cm h k
  · exact regroupSelect_nsteps subs s gsz mr cm h s

theorem regroupBody_front (chunkSteps : Nat) (subs : Array RSub) (s gsz mr cm : Nat)
    (hs : s < subs.size)
    (hz : ∀ j, j < s → (aget subs j).posted = 0 ∧ (aget subs j).received = 0 ∧
      (aget subs j).transmitted = 0 ∧ (aget subs j).done = 0) :
    ∀ j, j < s + 1 →
      (aget (regroupBody chunkSteps subs s gsz mr cm).1 j).posted = 0 ∧
      (aget (regroupBody chunkSteps subs s gsz mr cm).1 j).received = 0 ∧
      (aget (regroupBody chunkSteps subs s gsz mr cm).1 j).transmitted = 0 ∧
      (aget (regroupBody chunkSteps subs s gsz mr cm).1 j).done = 0 := by
  intro j hj
  unfold regroupBody setGroupSizes
  dsimp only
  obtain ⟨f1, f2, f3, f4, f5⟩ := setGroupSizesAux_fields
    ((regroupSelect subs s gsz mr cm).2 + 1)
    (aset (regroupSelect subs s gsz mr cm).1 s
      { aget (regroupSelect subs s gsz mr cm).1 s with
        base := roundUp (aget (regroupSelect subs s gsz mr cm).1 s).step chunkSteps
        posted := 0
        received := 0
        transmitted := 0
        done := 0 })
    s ((regroupSelect subs s gsz mr cm).2 + 1) 0 j
  rw [f2, f3, f4, f5]
  rcases Nat.lt_or_ge j s with hjs | hjs
  · rw [aget_aset_ne _ _ _ _ (Nat.ne_of_lt hjs), regroupSelect_front subs s gsz mr cm j hjs]
    exact hz j hjs
  · have hjeq : j = s := by omega
    subst hjeq
    have hbound : j < (regroupSelect subs j gsz mr cm).1.size := by
      rw [regroupSelect_fst_size]
      exact hs
    rw [aget_aset_self _ _ _ hbound]
    exact ⟨rfl, rfl, rfl, rfl⟩

theorem regroupLoop_zsub (chunkSteps : Nat) :
    ∀ (fuel : Nat) (subs : Array RSub) (s gsz mr cm : Nat),
      subs.size ≤ s + fuel →
      (∀ k, (aget subs k).nsteps = 0) →
      (∀ j, j < s → (aget subs j).posted = 0 ∧ (aget subs j).received = 0 ∧
        (aget subs j).transmitted = 0 ∧ (aget subs j).done = 0) →
      ∀ j, j < subs.size →
        ZSub (aget (regroupLoop chunkSteps fuel subs s gsz mr cm) j) := by
  intro fuel
  induction fuel with
  | zero =>
    intro subs s gsz mr cm hsz hns hz j hj
    have hjs : j < s := by omega
    obtain ⟨z1, z2, z3, z4⟩ := hz j hjs
    exact ⟨hns j, z1, z2, z3, z4⟩
  | succ fuel ih =>
    intro subs s gsz mr cm hsz hns hz j hj
    simp only [regroupLoop]
    split
    next hs =>
      have hbsize : (regroupBody chunkSteps subs s gsz mr cm).1.size = subs.size :=
        regroupBody_fst_size chunkSteps subs s gsz mr cm
      exact ih (regroupBody chunkSteps subs s gsz mr cm).1 (s + 1) _ _ _
        (by omega)
        (regroupBody_nsteps chunkSteps subs s gsz mr cm hns)
        (regroupBody_front chunkSteps subs s gsz mr cm hs hz)
        j (by omega)
    next hs =>
      have hjs : j < s := by omega
      obtain ⟨z1, z2, z3, z4⟩ := hz j hjs
      exact ⟨hns j, z1, z2, z3, z4⟩

theorem toArray_nsteps (l : List RSub) (h : ∀ sub ∈ l, sub.nsteps = 0) :
    ∀ k, (aget l.toArray k).nsteps = 0 := by
  intro k
  by_cases hk : k < l.toArray.size
  · rw [aget_eq _ _ hk, List.getElem_toArray]
    exact h _ (List.getElem_mem _)
  · rw [aget_default _ _ hk]
    rfl

theorem toList_zsub (arr : Array RSub) (h : ∀ j, j < arr.size → ZSub (aget arr j)) :
    ∀ sub ∈ arr.toList, ZSub sub := by
  intro sub hmem
  obtain ⟨n, hn, heq⟩ := List.mem_iff_getElem.mp hmem
  have hn2 : n < arr.size := by
    rw [← Array.length_toList]
    exact hn
  rw [← heq, Array.getElem_toList hn2, ← aget_eq arr n hn2]
  exact h n hn2

/-- Every member of the `Ready` regrouping of an all-`nsteps = 0` sub
list has zero steps and freshly reset cursors. -/
theorem regroup_zsub (chunkSteps : Nat) (l : List RSub) (h : ∀ sub ∈ l, sub.nsteps = 0) :
    ∀ sub ∈ (regroup chunkSteps l.toArray).toList, ZSub sub := by
  apply toList_zsub
  intro j hj
  unfold regroup at hj ⊢
  rw [regroupLoop_size] at hj
  exact regroupLoop_zsub chunkSteps l.toArray.size l.toArray 0 0 1 0 (by omega)
    (toArray_nsteps l h) (fun j hj => absurd hj (Nat.not_lt_zero j)) j hj

theorem chunkGroupsAux_join :
    ∀ (fuel : Nat) (l : List RSub), l.length ≤ fuel → (chunkGroupsAux fuel l).flatten = l := by
  intro fuel
  induction fuel with
  | zero =>
    intro l hl
    have : l = [] := List.length_eq_zero.mp (Nat.le_zero.mp hl)
    subst this
    rfl
  | succ fuel ih =>
    intro l hl
    match l with
    | [] => rfl
    | sub :: rest =>
      simp only [chunkGroupsAux, List.flatten_cons]
      rw [ih ((sub :: rest).drop (max 1 sub.groupSize)) ?_]
      · exact List.take_append_drop _ _
      · rw [List.length_drop]
        simp only [List.length_cons] at hl ⊢
        omega

theorem chunkGroups_join (l : List RSub) : (chunkGroups l).flatten = l :=
  chunkGroupsAux_join l.length l (le_refl _)

theorem chunk_mem (l : List RSub) (g : List RSub) (hg : g ∈ chunkGroups l)
    (m : RSub) (hm : m ∈ g) : m ∈ l := by
  rw [← chunkGroups_join l]
  exact List.mem_flatten.mpr ⟨g, hg, hm⟩

theorem collectLoop_zero (maxDepth : Nat) :
    ∀ g : List RSub, (∀ m ∈ g, m.nsteps = 0 ∧ m.posted = 0) →
      collectLoop maxDepth g = some 0 := by
  intro g
  induction g with
  | nil => intro _; rfl
  | cons sub rest ih =>
    intro h
    obtain ⟨hn, hp⟩ := h sub (List.mem_cons_self _ _)
    simp only [collectLoop]
    rw [if_neg (by omega)]
    exact ih (fun m hm => h m (List.mem_cons_of_mem _ hm))

theorem recvPhaseA_noop (maxDepth slice : Nat) (env : RecvEnv) :
    ∀ (gs : List (List RSub)) (gi : Nat),
      (∀ g ∈ gs, ∀ m ∈ g, m.nsteps = 0 ∧ m.posted = 0) →
      recvPhaseA maxDepth slice env gi gs = (gs, true, []) := by
  intro gs
  induction gs with
  | nil => intro gi _; rfl
  | cons g rest ih =>
    intro gi h
    simp only [recvPhaseA]
    rw [collectLoop_zero maxDepth g (h g (List.mem_cons_self _ _)),
      ih (gi + 1) (fun g2 hg2 => h g2 (List.mem_cons_of_mem _ hg2))]
    rfl

theorem recvPhaseB_noop (slice protocol : Nat) (env : RecvEnv) :
    ∀ (gs : List (List RSub)) (gi : Nat),
      (∀ g ∈ gs, ∀ m ∈ g, m.received = 0 ∧ m.posted = 0) →
      recvPhaseB slice protocol env gi gs = (gs, true, []) := by
  intro gs
  induction gs with
  | nil => intro gi _; rfl
  | cons g rest ih =>
    intro gi h
    simp only [recvPhaseB]
    rw [ih (gi + 1) (fun g2 hg2 => h g2 (List.mem_cons_of_mem _ hg2))]
    cases g with
    | nil => rfl
    | cons leader gr =>
      obtain ⟨h1, h2⟩ := h (leader :: gr) (List.mem_cons_self _ _) leader (List.mem_cons_self _ _)
      dsimp only
      rw [if_neg (by omega)]
      rfl

theorem recvPhaseC_noop (slice : Nat) (env : RecvEnv) :
    ∀ (gs : List (List RSub)) (gi : Nat),
      (∀ g ∈ gs, ∀ m ∈ g, m.transmitted = 0 ∧ m.received = 0) →
      recvPhaseC slice env gi gs = (gs, true, []) := by
  intro gs
  induction gs with
  | nil => intro gi _; rfl
  | cons g rest ih =>
    intro gi h
    simp only [recvPhaseC]
    rw [ih (gi + 1) (fun g2 hg2 => h g2 (List.mem_cons_of_mem _ hg2))]
    cases g with
    | nil => rfl
    | cons leader gr =>
      obtain ⟨h1, h2⟩ := h (leader :: gr) (List.mem_cons_self _ _) leader (List.mem_cons_self _ _)
      dsimp only
      rw [if_neg (by omega)]
      rfl

theorem recvPhaseDSub_skip (slice head : Nat) (sub : RSub) (h : sub.done = sub.nsteps) :
    recvPhaseDSub slice head sub = (sub, 0, false) := by
  simp [recvPhaseDSub, h]

theorem recvPhaseDGroup_noop (slice : Nat) (heads : Nat → Nat) :
    ∀ (g : List RSub) (i : Nat), (∀ m ∈ g, m.done = m.nsteps) →
      recvPhaseDGroup slice heads i g = (g, 0, true) := by
  intro g
  induction g with
  | nil => intro i _; rfl
  | cons sub rest ih =>
    intro i h
    simp only [recvPhaseDGroup]
    rw [recvPhaseDSub_skip slice (heads i) sub (h sub (List.mem_cons_self _ _)),
      ih (i + 1) (fun m hm => h m (List.mem_cons_of_mem _ hm))]
    rfl

theorem recvPhaseD_noop (slice : Nat) (env : RecvEnv) :
    ∀ (gs : List (List RSub)) (gi : Nat),
      (∀ g ∈ gs, ∀ m ∈ g, m.done = m.nsteps) →
      recvPhaseD slice env gi gs = (gs, 0, true) := by
  intro gs
  induction gs with
  | nil => intro gi _; rfl
  | cons g rest ih =>
    intro gi h
    simp only [recvPhaseD]
    rw [recvPhaseDGroup_noop slice (env.heads gi) g 0 (h g (List.mem_cons_self _ _)),
      ih (gi + 1) (fun g2 hg2 => h g2 (List.mem_cons_of_mem _ hg2))]
    rfl

/-- A recv op sitting in `Progress` with every sub at `nsteps = 0` and
reset cursors is a fixed point: no fabric call, nothing changes, and the
op never reaches `None`. -/
theorem recvProgress_fix (env : RecvEnv) (args : RecvArgs)
    (hstate : args.state = OpState.opProgress) (hdone : args.done = 0)
    (hne : args.subs ≠ []) (hz : ∀ sub ∈ args.subs, ZSub sub) :
    recvProxyProgressModel env args = (args, []) := by
  obtain ⟨st, subs, dn, sl, ch, pr⟩ := args
  simp only at hstate hdone hne hz
  subst hstate
  subst hdone
  have hlen : subs.length ≠ 0 := by
    intro hc
    exact hne (List.length_eq_zero.mp hc)
  have hmem : ∀ g ∈ chunkGroups subs, ∀ m ∈ g, ZSub m :=
    fun g hg m hm => hz m (chunk_mem subs g hg m hm)
  have hA := recvPhaseA_noop (min NCCL_STEPS (NCCL_SHARED_STEPS / subs.length)) sl env
    (chunkGroups subs) 0
    (fun g hg m hm => ⟨(hmem g hg m hm).1, (hmem g hg m hm).2.1⟩)
  have hB := recvPhaseB_noop sl pr env (chunkGroups subs) 0
    (fun g hg m hm => ⟨(hmem g hg m hm).2.2.1, (hmem g hg m hm).2.1⟩)
  have hC := recvPhaseC_noop sl env (chunkGroups subs) 0
    (fun g hg m hm => ⟨(hmem g hg m hm).2.2.2.1, (hmem g hg m hm).2.2.1⟩)
  have hD := recvPhaseD_noop sl env (chunkGroups subs) 0
    (fun g hg m hm => by rw [(hmem g hg m hm).2.2.2.2, (hmem g hg m hm).1])
  simp only [recvProxyProgressModel]
  simp [hA, hB, hC, hD, chunkGroups_join, hlen]
  omega

/-- From `Ready`, a recv op whose subs all have `nsteps = 0` regroups,
performs no fabric call and lands in `Progress` with every sub reset
and the op counter untouched — so later calls face the fixed point
above and the op never reaches `None`. -/
theorem recvProgress_ready_zero (env : RecvEnv) (args : RecvArgs)
    (hstate : args.state = OpState.opReady) (hdone : args.done = 0)
    (hne : args.subs ≠ []) (hns : ∀ sub ∈ args.subs, sub.nsteps = 0) :
    (recvProxyProgressModel env args).2 = [] ∧
    (recvProxyProgressModel env args).1.state = OpState.opProgress ∧
    (recvProxyProgressModel env args).1.done = 0 ∧
    (recvProxyProgressModel env args).1.subs ≠ [] ∧
    (∀ sub ∈ (recvProxyProgressModel env args).1.subs, ZSub sub) := by
  obtain ⟨st, subs, dn, sl, ch, pr⟩ := args
  simp only at hstate hdone hne hns
  subst hstate
  subst hdone
  have hlen : subs.length ≠ 0 := by
    intro hc
    exact hne (List.length_eq_zero.mp hc)
  have hz : ∀ sub ∈ (regroup ch subs.toArray).toList, ZSub sub := regroup_zsub ch subs hns
  have hlen2 : (regroup ch subs.toArray).toList.length = subs.length := by
    rw [Array.length_toList]
    unfold regroup
    rw [regroupLoop_size]
  have hne2 : (regroup ch subs.toArray).toList ≠ [] := by
    intro hc
    rw [hc] at hlen2
    exact hlen hlen2.symm
  have hmem : ∀ g ∈ chunkGroups (regroup ch subs.toArray).toList, ∀ m ∈ g, ZSub m :=
    fun g hg m hm => hz m (chunk_mem _ g hg m hm)
  have hA := recvPhaseA_noop
    (min NCCL_STEPS (NCCL_SHARED_STEPS / (regroup ch subs.toArray).toList.length)) sl env
    (chunkGroups (regroup ch subs.toArray).toList) 0
    (fun g hg m hm => ⟨(hmem g hg m hm).1, (hmem g hg m hm).2.1⟩)
  have hB := recvPhaseB_noop sl pr env (chunkGroups (regroup ch subs.toArray).toList) 0
    (fun g hg m hm => ⟨(hmem g hg m hm).2.2.1, (hmem g hg m hm).2.1⟩)
  have hC := recvPhaseC_noop sl env (chunkGroups (regroup ch subs.toArray).toList) 0
    (fun g hg m hm => ⟨(hmem g hg m hm).2.2.2.1, (hmem g hg m hm).2.2.1⟩)
  have hD := recvPhaseD_noop sl env (chunkGroups (regroup ch subs.toArray).toList) 0
    (fun g hg m hm => by rw [(hmem g hg m hm).2.2.2.2, (hmem g hg m hm).1])
  have hlen3 : (regroup ch subs.toArray).toList.length ≠ 0 := by
    rw [hlen2]
    exact hlen
  simp [recvProxyProgressModel, hA, hB, hC, hD, chunkGroups_join, hlen3, hz]
  refine ⟨?_, hne2, hz⟩
  intro hc
  exact hlen3 (by rw [Array.length_toList, ← hc])

/-- **C2, amended.** For every proxy op in which every sub has
`nsteps == 0`, a progress call never invokes the fabric plugin (no
`isend`, `irecv`, `test` or `iflush`), for both `sendProxyProgress` and
`recvProxyProgress`; but the op does *not* complete: the first call
takes the state from `Ready` to `Progress` (leaving `args->done` at 0),
and every further call is a fixed point, so the op never transitions to
`None` — a sub with `done == nsteps` is skipped before the completion
bookkeeping that increments `args->done`. -/
theorem c2_nsteps_zero_no_fabric :
    (∀ (env : SendEnv) (args : SendArgs),
      args.state = OpState.opReady → args.done = 0 → args.subs ≠ [] →
      (∀ sub ∈ args.subs, sub.nsteps = 0) →
      (sendProxyProgressModel env args).2 = [] ∧
      (sendProxyProgressModel env args).1.state = OpState.opProgress) ∧
    (∀ (env : SendEnv) (args : SendArgs),
      args.state = OpState.opProgress → args.done = 0 → args.subs ≠ [] →
      (∀ sub ∈ args.subs, sub.done = sub.nsteps) →
      sendProxyProgressModel env args = (args, [])) ∧
    (∀ (env : RecvEnv) (args : RecvArgs),
      args.state = OpState.opReady → args.done = 0 → args.subs ≠ [] →
      (∀ sub ∈ args.subs, sub.nsteps = 0) →
      (recvProxyProgressModel env args).2 = [] ∧
      (recvProxyProgressModel env args).1.state = OpState.opProgress ∧
      (recvProxyProgressModel env args).1.done = 0 ∧
      (recvProxyProgressModel env args).1.subs ≠ [] ∧
      (∀ sub ∈ (recvProxyProgressModel env args).1.subs, ZSub sub)) ∧
    (∀ (env : RecvEnv) (args : RecvArgs),
      args.state = OpState.opProgress → args.done = 0 → args.subs ≠ [] →
      (∀ sub ∈ args.subs, ZSub sub) →
      recvProxyProgressModel env args = (args, [])) := by
  refine ⟨fun env args h1 h2 h3 h4 => ?_, sendProgress_fix,
    recvProgress_ready_zero, recvProgress_fix⟩
  rw [sendProgress_ready_zero env args h1 h2 h3 h4]
  exact ⟨rfl, rfl⟩

/-- **C2, amended, witness.** The behavior evaluated on the concrete
one-sub `nsteps = 0` ops: the first call from `Ready` and the fixed
point in `Progress`, on both sides. -/
theorem c2_nsteps_zero_no_fabric_witness :
    ((sendProxyProgressModel c2SendEnv c2SendOp).2 = [] ∧
     (sendProxyProgressModel c2SendEnv c2SendOp).1.state = OpState.opProgress) ∧
    sendProxyProgressModel c2SendEnv
        ⟨OpState.opProgress, [⟨0, 0, false, 0, 0, 0, 0⟩], 0, 2, 2⟩ =
      (⟨OpState.opProgress, [⟨0, 0, false, 0, 0, 0, 0⟩], 0, 2, 2⟩, []) ∧
    ((recvProxyProgressModel c2RecvEnv c2RecvOp).2 = [] ∧
     (recvProxyProgressModel c2RecvEnv c2RecvOp).1.state = OpState.opProgress ∧
     (recvProxyProgressModel c2RecvEnv c2RecvOp).1.done = 0 ∧
     (recvProxyProgressModel c2RecvEnv c2RecvOp).1.subs ≠ []) ∧
    recvProxyProgressModel c2RecvEnv
        ⟨OpState.opProgress, [⟨10, 2, 0, 0, 0, 1, 0, 0, 0, 0, 0⟩], 0, 2, 2, NCCL_PROTO_SIMPLE⟩ =
      (⟨OpState.opProgress, [⟨10, 2, 0, 0, 0, 1, 0, 0, 0, 0, 0⟩], 0, 2, 2, NCCL_PROTO_SIMPLE⟩, []) := by
  have h1 := c2_nsteps_zero_no_fabric.1 c2SendEnv c2SendOp rfl rfl (by decide) (by decide)
  have h2 := c2_nsteps_zero_no_fabric.2.1 c2SendEnv
    ⟨OpState.opProgress, [⟨0, 0, false, 0, 0, 0, 0⟩], 0, 2, 2⟩ rfl rfl (by decide) (by decide)
  have h3 := c2_nsteps_zero_no_fabric.2.2.1 c2RecvEnv c2RecvOp rfl rfl (by decide) (by decide)
  have h4 := c2_nsteps_zero_no_fabric.2.2.2 c2RecvEnv
    ⟨OpState.opProgress, [⟨10, 2, 0, 0, 0, 1, 0, 0, 0, 0, 0⟩], 0, 2, 2, NCCL_PROTO_SIMPLE⟩
    rfl rfl (by decide) (by decide)
  exact ⟨h1, h2, ⟨h3.1, h3.2.1, h3.2.2.1, h3.2.2.2.1⟩, h4⟩

/-! ## General form of the `Ready`-entry regrouping (claim C4) -/

theorem list_set_self {α : Type} (l : List α) (i : Nat) (h : i < l.length) :
    l.set i l[i] = l := by
  apply List.ext_getElem
  · simp
  · intro n h1 h2
    rw [List.getElem_set]
    split
    next he => subst he; rfl
    next => rfl

/-- Swapping two list entries is a permutation. -/
theorem list_swap_perm {α : Type} [DecidableEq α] (l : List α) (i j : Nat)
    (hi : i < l.length) (hj : j < l.length) :
    ((l.set i l[j]).set j l[i]).Perm l := by
  rw [List.perm_iff_count]
  intro a
  by_cases hij : i = j
  · subst hij
    by_cases h1 : l[i] = a
    · have hca : 1 ≤ l.count a := List.count_pos_iff.mpr (h1 ▸ List.getElem_mem hi)
      simp [List.count_set, hi, h1]
      omega
    · simp [List.count_set, hi, h1]
  · have hj2 : j < (l.set i l[j]).length := by simpa using hj
    rw [List.count_set _ _ _ _ hj2, List.count_set _ _ _ _ hi]
    rw [List.getElem_set_ne hij]
    by_cases h1 : l[i] = a
    · by_cases h2 : l[j] = a
      · have hca : 1 ≤ l.count a := List.count_pos_iff.mpr (h1 ▸ List.getElem_mem hi)
        simp [h1, h2]
        omega
      · have hca : 1 ≤ l.count a := List.count_pos_iff.mpr (h1 ▸ List.getElem_mem hi)
        simp [h1, h2]
        omega
    · by_cases h2 : l[j] = a
      · have hca : 1 ≤ l.count a := List.count_pos_iff.mpr (h2 ▸ List.getElem_mem hj)
        simp [h1, h2]
      · simp [h1, h2]

theorem aswap_toList_perm (a : Array RSub) (i j : Nat) :
    (aswap a i j).toList.Perm a.toList := by
  unfold aswap
  split
  next hij =>
    rw [Array.toList_swap]
    have hi : i < a.toList.length := by rw [Array.length_toList]; exact hij.1
    have hj : j < a.toList.length := by rw [Array.length_toList]; exact hij.2
    have hgi : a.get ⟨i, hij.1⟩ = a.toList[i] := by
      rw [Array.get_eq_getElem, Array.getElem_toList hij.1]
    have hgj : a.get ⟨j, hij.2⟩ = a.toList[j] := by
      rw [Array.get_eq_getElem, Array.getElem_toList hij.2]
    rw [hgi, hgj]
    exact list_swap_perm a.toList i j hi hj
  next => exact List.Perm.refl _

theorem aset_toList (a : Array RSub) (i : Nat) (v : RSub) (h : i < a.size) :
    (aset a i v).toList = a.toList.set i v := by
  unfold aset
  rw [dif_pos h, Array.toList_set]

/-- Overwriting a slot with a sub that carries the same `rkey`
projection preserves the multiset of `rkey` projections. -/
theorem set_key_perm (a : Array RSub) (i : Nat) (v : RSub) (h : rkey v = rkey (aget a i)) :
    ((aset a i v).toList.map rkey).Perm (a.toList.map rkey) := by
  by_cases hi : i < a.size
  · rw [aset_toList a i v hi, List.map_set, h]
    have hi2 : i < a.toList.length := by rw [Array.length_toList]; exact hi
    have hival : aget a i = a.toList[i] := by
      rw [aget_eq _ _ hi, Array.getElem_toList hi]
    have hi3 : i < (a.toList.map rkey).length := by simpa using hi2
    have hkey : rkey (aget a i) = (a.toList.map rkey)[i] := by
      rw [hival, List.getElem_map]
    rw [hkey, list_set_self _ _ hi3]
  · unfold aset
    rw [dif_neg hi]

theorem setGroupSizesAux_key_perm :
    ∀ (c : Nat) (subs : Array RSub) (s g i : Nat),
      ((setGroupSizesAux subs s g i c).toList.map rkey).Perm (subs.toList.map rkey) := by
  intro c
  induction c with
  | zero => intro subs s g i; exact List.Perm.refl _
  | succ c ih =>
    intro subs s g i
    simp only [setGroupSizesAux]
    exact (ih _ s g (i + 1)).trans (set_key_perm subs (s - i) _ rfl)

/-- The same-comm search only returns an index other than `nsubs` when
the sub there matches the `recvComm` searched for. -/
theorem findSameComm_found (subs : Array RSub) (comm : Nat) :
    ∀ (fuel next : Nat), next ≤ subs.size → subs.size ≤ next + fuel →
      findSameComm subs comm fuel next ≠ subs.size →
      findSameComm subs comm fuel next < subs.size ∧
        (aget subs (findSameComm subs comm fuel next)).comm = comm := by
  intro fuel
  induction fuel with
  | zero =>
    intro next h1 h2 h3
    exact absurd (show findSameComm subs comm 0 next = subs.size from by
      simp only [findSameComm]; omega) h3
  | succ fuel ih =>
    intro next h1 h2 h3
    simp only [findSameComm] at h3 ⊢
    by_cases hn : next < subs.size
    · rw [if_pos hn] at h3 ⊢
      by_cases hc : (aget subs next).comm = comm
      · rw [if_pos hc] at h3 ⊢
        exact ⟨hn, hc⟩
      · rw [if_neg hc] at h3 ⊢
        exact ih (next + 1) (by omega) (by omega) h3
    · rw [if_neg hn] at h3
      exact absurd rfl h3

theorem aget_aswap_fst (a : Array RSub) (i j : Nat) (hi : i < a.size) (hj : j < a.size) :
    aget (aswap a i j) i = aget a j := by
  unfold aswap
  rw [dif_pos (⟨hi, hj⟩ : i < a.size ∧ j < a.size)]
  have hs : i < (a.swap ⟨i, hi⟩ ⟨j, hj⟩).size := by rw [Array.size_swap]; exact hi
  rw [aget_eq _ _ hs, aget_eq _ _ hj]
  exact Array.getElem_swap_left a

/-- Positions the `groupSize`-stamping loop never writes keep their
value. -/
theorem setGroupSizesAux_out :
    ∀ (c : Nat) (subs : Array RSub) (s g i j : Nat),
      (∀ t, t < c → j ≠ s - (i + t)) →
      aget (setGroupSizesAux subs s g i c) j = aget subs j := by
  intro c
  induction c with
  | zero => intro subs s g i j h; rfl
  | succ c ih =>
    intro subs s g i j h
    simp only [setGroupSizesAux]
    rw [ih _ s g (i + 1) j (fun t ht => by
      have := h (t + 1) (by omega)
      omega)]
    exact aget_aset_ne subs (s - i) j _ (by have := h 0 (by omega); omega)

/-- Positions the `groupSize`-stamping loop writes get `groupSize := g`
and keep every other field. -/
theorem setGroupSizesAux_stamp :
    ∀ (c : Nat) (subs : Array RSub) (s g i j : Nat),
      i + c ≤ s + 1 → s < subs.size →
      (∃ t, t < c ∧ j = s - (i + t)) →
      aget (setGroupSizesAux subs s g i c) j = { aget subs j with groupSize := g } := by
  intro c
  induction c with
  | zero =>
    intro subs s g i j h1 h2 h3
    obtain ⟨t, ht, _⟩ := h3
    omega
  | succ c ih =>
    intro subs s g i j h1 h2 h3
    obtain ⟨t, ht, hj⟩ := h3
    simp only [setGroupSizesAux]
    by_cases ht0 : t = 0
    · subst ht0
      have hji : j = s - i := by omega
      subst hji
      rw [setGroupSizesAux_out c _ s g (i + 1) (s - i) (fun t' ht' => by omega)]
      exact aget_aset_self subs (s - i) _ (by omega)
    · obtain ⟨t', rfl⟩ : ∃ t', t = t' + 1 := ⟨t - 1, by omega⟩
      rw [ih (aset subs (s - i) { aget subs (s - i) with groupSize := g }) s g (i + 1) j
            (by omega) (by rw [aset_size]; exact h2) ⟨t', by omega, by omega⟩,
          aget_aset_ne subs (s - i) j _ (by omega)]

/-- The head of one grouping iteration: the running `groupSize` either
resets to 0 (previous group full, or no later sub shares the
`recvComm`) or is kept, and in the latter case (at `s > 0`) the sub now
at position `s` carries the searched `recvComm`; in every case that sub
is one of the array's subs. -/
theorem regroupSelect_spec (subs : Array RSub) (s g m c : Nat) (hs : s < subs.size) :
    ((regroupSelect subs s g m c).2 = 0 ∨
      (0 < s ∧ (regroupSelect subs s g m c).2 = g ∧ g ≠ m ∧
        (aget (regroupSelect subs s g m c).1 s).comm = c) ∨
      (s = 0 ∧ (regroupSelect subs s g m c).2 = g)) ∧
    (∃ k, k < subs.size ∧ aget (regroupSelect subs s g m c).1 s = aget subs k) := by
  unfold regroupSelect
  dsimp only
  by_cases h1 : g = m
  · rw [if_pos h1]
    exact ⟨Or.inl rfl, s, hs, rfl⟩
  · rw [if_neg h1]
    by_cases h2 : 0 < s
    · rw [if_pos h2]
      by_cases h3 : findSameComm subs c (subs.size + 1) s = subs.size
      · rw [if_pos h3]
        exact ⟨Or.inl rfl, s, hs, rfl⟩
      · rw [if_neg h3]
        obtain ⟨hlt, hcm⟩ := findSameComm_found subs c (subs.size + 1) s
          (by omega) (by omega) h3
        by_cases h4 : findSameComm subs c (subs.size + 1) s ≠ s
        · rw [if_pos h4]
          have hsw : aget (aswap subs s (findSameComm subs c (subs.size + 1) s)) s
              = aget subs (findSameComm subs c (subs.size + 1) s) :=
            aget_aswap_fst subs s _ hs hlt
          refine ⟨Or.inr (Or.inl ⟨h2, rfl, h1, ?_⟩), _, hlt, hsw⟩
          rw [hsw]
          exact hcm
        · rw [if_neg h4]
          push_neg at h4
          refine ⟨Or.inr (Or.inl ⟨h2, rfl, h1, ?_⟩), s, hs, rfl⟩
          rw [← h4]
          exact hcm
    · rw [if_neg h2]
      exact ⟨Or.inr (Or.inr ⟨by omega, rfl⟩), s, hs, rfl⟩

theorem regroupBody_snd (chunkSteps : Nat) (subs : Array RSub) (s g m c : Nat) :
    (regroupBody chunkSteps subs s g m c).2 =
      ((regroupSelect subs s g m c).2 + 1,
       (aget (regroupSelect subs s g m c).1 s).maxRecvs,
       (aget (regroupSelect subs s g m c).1 s).comm) := rfl

/-- One grouping iteration, position by position: entries below the
current group keep their value, the current group's older members only
get the new `groupSize` stamped, and the sub at `s` gets `base` rounded
up from its `step`, all four cursors reset and the new `groupSize`. -/
theorem regroupBody_sp (chunkSteps : Nat) (subs : Array RSub) (s g m c : Nat)
    (hs : s < subs.size) (hps : (regroupSelect subs s g m c).2 ≤ s) :
    (∀ j, j < s - (regroupSelect subs s g m c).2 →
      aget (regroupBody chunkSteps subs s g m c).1 j = aget subs j) ∧
    (∀ j, s - (regroupSelect subs s g m c).2 ≤ j → j < s →
      aget (regroupBody chunkSteps subs s g m c).1 j =
        { aget subs j with groupSize := (regroupSelect subs s g m c).2 + 1 }) ∧
    (aget (regroupBody chunkSteps subs s g m c).1 s =
      { aget (regroupSelect subs s g m c).1 s with
          base := roundUp (aget (regroupSelect subs s g m c).1 s).step chunkSteps
          posted := 0
          received := 0
          transmitted := 0
          done := 0
          groupSize := (regroupSelect subs s g m c).2 + 1 }) := by
  unfold regroupBody setGroupSizes
  dsimp only
  have hsize : s < (aset (regroupSelect subs s g m c).1 s
      { aget (regroupSelect subs s g m c).1 s with
        base := roundUp (aget (regroupSelect subs s g m c).1 s).step chunkSteps
        posted := 0
        received := 0
        transmitted := 0
        done := 0 }).size := by
    rw [aset_size, regroupSelect_fst_size]
    exact hs
  have hsel : s < (regroupSelect subs s g m c).1.size := by
    rw [regroupSelect_fst_size]
    exact hs
  refine ⟨?_, ?_, ?_⟩
  · intro j hj
    rw [setGroupSizesAux_out _ _ s _ 0 j (fun t ht => by omega),
        aget_aset_ne _ s j _ (by omega),
        regroupSelect_front subs s g m c j (by omega)]
  · intro j hj1 hj2
    rw [setGroupSizesAux_stamp _ _ s _ 0 j (by omega) hsize ⟨s - j, by omega, by omega⟩,
        aget_aset_ne _ s j _ (by omega),
        regroupSelect_front subs s g m c j hj2]
  · rw [setGroupSizesAux_stamp _ _ s _ 0 s (by omega) hsize ⟨0, by omega, by omega⟩,
        aget_aset_self _ s _ hsel]

/-- One grouping iteration preserves the multiset of `rkey`
projections: the reordering is in place. -/
theorem regroupBody_key_perm (chunkSteps : Nat) (subs : Array RSub) (s g m c : Nat) :
    ((regroupBody chunkSteps subs s g m c).1.toList.map rkey).Perm (subs.toList.map rkey) := by
  have hsel : ((regroupSelect subs s g m c).1.toList.map rkey).Perm
      (subs.toList.map rkey) := by
    rcases regroupSelect_fst_cases subs s g m c with hc | ⟨next, _, hc⟩
    · rw [hc]
    · rw [hc]
      exact (aswap_toList_perm subs s next).map rkey
  unfold regroupBody setGroupSizes
  dsimp only
  exact ((setGroupSizesAux_key_perm ((regroupSelect subs s g m c).2 + 1)
      (aset (regroupSelect subs s g m c).1 s
        { aget (regroupSelect subs s g m c).1 s with
          base := roundUp (aget (regroupSelect subs s g m c).1 s).step chunkSteps
          posted := 0
          received := 0
          transmitted := 0
          done := 0 }) s ((regroupSelect subs s g m c).2 + 1) 0).trans
    (set_key_perm (regroupSelect subs s g m c).1 s
      { aget (regroupSelect subs s g m c).1 s with
        base := roundUp (aget (regroupSelect subs s g m c).1 s).step chunkSteps
        posted := 0
        received := 0
        transmitted := 0
        done := 0 } rfl)).trans hsel

/-- Equal `rkey` multisets let the `recvComm` and `maxRecvs` of any sub
of one array be found on a sub of the other. -/
theorem key_transport (a b : Array RSub)
    (hperm : (a.toList.map rkey).Perm (b.toList.map rkey)) :
    ∀ j, j < a.size → ∃ k, k < b.size ∧
      (aget a j).comm = (aget b k).comm ∧
      (aget a j).maxRecvs = (aget b k).maxRecvs := by
  intro j hj
  have hj2 : j < a.toList.length := by rw [Array.length_toList]; exact hj
  have hmem : rkey (aget a j) ∈ a.toList.map rkey := by
    apply List.mem_map_of_mem
    rw [aget_eq _ _ hj, ← Array.getElem_toList hj]
    exact List.getElem_mem hj2
  obtain ⟨y, hy, hkey⟩ := List.mem_map.mp (hperm.mem_iff.mp hmem)
  obtain ⟨k, hk, hyeq⟩ := List.mem_iff_getElem.mp hy
  have hkb : k < b.size := by rw [← Array.length_toList]; exact hk
  have hkeys : rkey (aget b k) = rkey (aget a j) := by
    rw [aget_eq _ _ hkb, ← Array.getElem_toList hkb, hyeq]
    exact hkey
  simp only [rkey, Prod.mk.injEq] at hkeys
  exact ⟨k, hkb, hkeys.1.symm, hkeys.2.1.symm⟩

/-- Arrays that agree position by position below `n` have the same
`n`-element front. -/
theorem take_aget_eq (a b : Array RSub) (n : Nat) (hsz : a.size = b.size)
    (hn : n ≤ a.size) (h : ∀ j, j < n → aget a j = aget b j) :
    a.toList.take n = b.toList.take n := by
  apply List.ext_getElem
  · rw [List.length_take, List.length_take, Array.length_toList, Array.length_toList, hsz]
  · intro k h1 h2
    rw [List.getElem_take, List.getElem_take]
    have hk : k < n := by
      rw [List.length_take] at h1
      omega
    have hka : k < a.size := by omega
    have hkb : k < b.size := by omega
    rw [Array.getElem_toList hka, Array.getElem_toList hkb,
        ← aget_eq _ _ hka, ← aget_eq _ _ hkb]
    exact h k hk

/-- Closing the running group: if positions `s - g .. s - 1` hold `g`
same-comm subs stamped with `groupSize = g` and `g` is within their
common `maxRecvs`, the grouped front extends from `s - g` to `s`. -/
theorem grouped_close (subs : Array RSub) (s g m c : Nat)
    (hgs : g ≤ s) (hss : s ≤ subs.size) (hgm : g ≤ m)
    (hopen : ∀ j, s - g ≤ j → j < s →
      (aget subs j).comm = c ∧ (aget subs j).maxRecvs = m ∧ (aget subs j).groupSize = g)
    (hgrp : Grouped (subs.toList.take (s - g))) :
    Grouped (subs.toList.take s) := by
  by_cases hg0 : g = 0
  · subst hg0
    simpa using hgrp
  · have hlen : (subs.toList.take s).length = s := by
      rw [List.length_take_of_le]
      rw [Array.length_toList]
      exact hss
    have hdecomp := (List.take_append_drop (s - g) (subs.toList.take s)).symm
    rw [List.take_take, Nat.min_def, if_pos (by omega : s - g ≤ s)] at hdecomp
    rw [hdecomp]
    have hmem : ∀ x ∈ (subs.toList.take s).drop (s - g),
        ∃ j, s - g ≤ j ∧ j < s ∧ x = aget subs j := by
      intro x hx
      obtain ⟨t, htl, hxe⟩ := List.mem_iff_getElem.mp hx
      rw [List.length_drop, hlen] at htl
      have hj : (s - g) + t < subs.size := by omega
      refine ⟨(s - g) + t, by omega, by omega, ?_⟩
      rw [← hxe, List.getElem_drop, List.getElem_take,
          Array.getElem_toList hj, ← aget_eq _ _ hj]
    have hblen : ((subs.toList.take s).drop (s - g)).length = g := by
      rw [List.length_drop, hlen]
      omega
    refine Grouped.snoc _ _ hgrp ?_ ⟨?_, ?_, ?_⟩
    · intro hb
      rw [hb] at hblen
      exact hg0 hblen.symm
    · intro x hx y hy
      obtain ⟨j1, hj1a, hj1b, rfl⟩ := hmem x hx
      obtain ⟨j2, hj2a, hj2b, rfl⟩ := hmem y hy
      rw [(hopen j1 hj1a hj1b).1, (hopen j2 hj2a hj2b).1]
    · intro x hx
      obtain ⟨j, hja, hjb, rfl⟩ := hmem x hx
      rw [hblen, (hopen j hja hjb).2.2]
    · intro x hx
      obtain ⟨j, hja, hjb, rfl⟩ := hmem x hx
      rw [hblen, (hopen j hja hjb).2.1]
      exact hgm

/-- The grouping loop, started at `s` with the running group filling
positions `s - g .. s - 1` (comm `c`, common `maxRecvs` `m`, stamped
`groupSize = g`) on top of an already grouped front: the final array is
a concatenation of recvComm groups, its `rkey` multiset is unchanged,
and every entry ends with its cursors reset and `base` rounded up from
its own `step`. -/
theorem regroupLoop_main (chunkSteps : Nat) :
    ∀ (fuel : Nat) (subs : Array RSub) (s g m c : Nat),
      subs.size ≤ s + fuel → s ≤ subs.size → g ≤ s → g ≤ m →
      (∀ j, j < subs.size → 1 ≤ (aget subs j).maxRecvs) →
      (∀ j k, j < subs.size → k < subs.size →
        (aget subs j).comm = (aget subs k).comm →
        (aget subs j).maxRecvs = (aget subs k).maxRecvs) →
      (∀ j, s - g ≤ j → j < s →
        (aget subs j).comm = c ∧ (aget subs j).maxRecvs = m ∧
        (aget subs j).groupSize = g) →
      (∀ j, j < s → (aget subs j).posted = 0 ∧ (aget subs j).received = 0 ∧
        (aget subs j).transmitted = 0 ∧ (aget subs j).done = 0 ∧
        (aget subs j).base = roundUp (aget subs j).step chunkSteps) →
      Grouped (subs.toList.take (s - g)) →
      Grouped (regroupLoop chunkSteps fuel subs s g m c).toList ∧
      ((regroupLoop chunkSteps fuel subs s g m c).toList.map rkey).Perm
        (subs.toList.map rkey) ∧
      (∀ j, j < subs.size →
        (aget (regroupLoop chunkSteps fuel subs s g m c) j).posted = 0 ∧
        (aget (regroupLoop chunkSteps fuel subs s g m c) j).received = 0 ∧
        (aget (regroupLoop chunkSteps fuel subs s g m c) j).transmitted = 0 ∧
        (aget (regroupLoop chunkSteps fuel subs s g m c) j).done = 0 ∧
        (aget (regroupLoop chunkSteps fuel subs s g m c) j).base =
          roundUp (aget (regroupLoop chunkSteps fuel subs s g m c) j).step chunkSteps) := by
  intro fuel
  induction fuel with
  | zero =>
    intro subs s g m c h1 h2 h3 h4 hM hC hopen hreset hgrp
    have hse : s = subs.size := by omega
    refine ⟨?_, List.Perm.refl _, fun j hj => hreset j (by omega)⟩
    have hcl := grouped_close subs s g m c h3 h2 h4 hopen hgrp
    have hlen : subs.toList.length = subs.size := Array.length_toList
    rw [hse, ← hlen, List.take_length] at hcl
    exact hcl
  | succ fuel ih =>
    intro subs s g m c h1 h2 h3 h4 hM hC hopen hreset hgrp
    by_cases hs : s < subs.size
    · simp only [regroupLoop]
      rw [if_pos hs]
      obtain ⟨hdisj, k, hk, hkeq⟩ := regroupSelect_spec subs s g m c hs
      have hp2s : (regroupSelect subs s g m c).2 ≤ s := by
        rcases hdisj with h | ⟨_, h, _, _⟩ | ⟨_, h⟩ <;> omega
      obtain ⟨hbA, hbB, hbC⟩ := regroupBody_sp chunkSteps subs s g m c hs hp2s
      have hbsz : (regroupBody chunkSteps subs s g m c).1.size = subs.size :=
        regroupBody_fst_size chunkSteps subs s g m c
      have hkp := regroupBody_key_perm chunkSteps subs s g m c
      have hm' : (regroupSelect subs s g m c).2 + 1 ≤
          (aget (regroupSelect subs s g m c).1 s).maxRecvs := by
        rcases hdisj with hd | ⟨hpos, hd, hne, hcm⟩ | ⟨hzero, hd⟩
        · rw [hd, hkeq]
          exact hM k hk
        · by_cases hg0 : g = 0
          · rw [hd, hkeq]
            have := hM k hk
            omega
          · have hold := hopen (s - 1) (by omega) (by omega)
            have hceq : (aget subs k).comm = (aget subs (s - 1)).comm := by
              rw [hold.1, ← hkeq]
              exact hcm
            have hmeq := hC k (s - 1) hk (by omega) hceq
            rw [hd, hkeq, hmeq, hold.2.1]
            omega
        · rw [hd, hkeq]
          have := hM k hk
          omega
      have htrans := key_transport (regroupBody chunkSteps subs s g m c).1 subs hkp
      have hM' : ∀ j, j < (regroupBody chunkSteps subs s g m c).1.size →
          1 ≤ (aget (regroupBody chunkSteps subs s g m c).1 j).maxRecvs := by
        intro j hj
        obtain ⟨k2, hk2, _, hmr⟩ := htrans j hj
        rw [hmr]
        exact hM k2 hk2
      have hC' : ∀ j k2, j < (regroupBody chunkSteps subs s g m c).1.size →
          k2 < (regroupBody chunkSteps subs s g m c).1.size →
          (aget (regroupBody chunkSteps subs s g m c).1 j).comm =
            (aget (regroupBody chunkSteps subs s g m c).1 k2).comm →
          (aget (regroupBody chunkSteps subs s g m c).1 j).maxRecvs =
            (aget (regroupBody chunkSteps subs s g m c).1 k2).maxRecvs := by
        intro j k2 hj hk2 hcm2
        obtain ⟨k3, hk3, hc3, hm3⟩ := htrans j hj
        obtain ⟨k4, hk4, hc4, hm4⟩ := htrans k2 hk2
        rw [hm3, hm4]
        exact hC k3 k4 hk3 hk4 (by rw [← hc3, ← hc4, hcm2])
      have hopen' : ∀ j, (s + 1) - ((regroupSelect subs s g m c).2 + 1) ≤ j → j < s + 1 →
          (aget (regroupBody chunkSteps subs s g m c).1 j).comm =
            (aget (regroupSelect subs s g m c).1 s).comm ∧
          (aget (regroupBody chunkSteps subs s g m c).1 j).maxRecvs =
            (aget (regroupSelect subs s g m c).1 s).maxRecvs ∧
          (aget (regroupBody chunkSteps subs s g m c).1 j).groupSize =
            (regroupSelect subs s g m c).2 + 1 := by
        intro j hj1 hj2
        by_cases hjs : j = s
        · subst hjs
          rw [hbC]
          exact ⟨rfl, rfl, rfl⟩
        · have hj3 : s - (regroupSelect subs s g m c).2 ≤ j := by omega
          have hj4 : j < s := by omega
          rw [hbB j hj3 hj4]
          rcases hdisj with hd | ⟨hpos, hd, hne, hcm⟩ | ⟨hzero, hd⟩
          · omega
          · have hold := hopen j (by omega) hj4
            refine ⟨?_, ?_, rfl⟩
            · show (aget subs j).comm = (aget (regroupSelect subs s g m c).1 s).comm
              rw [hold.1, hcm]
            · show (aget subs j).maxRecvs =
                (aget (regroupSelect subs s g m c).1 s).maxRecvs
              have hceq : (aget subs k).comm = (aget subs j).comm := by
                rw [hold.1, ← hkeq]
                exact hcm
              rw [hkeq]
              exact (hC k j hk (by omega) hceq).symm
          · omega
      have hreset' : ∀ j, j < s + 1 →
          (aget (regroupBody chunkSteps subs s g m c).1 j).posted = 0 ∧
          (aget (regroupBody chunkSteps subs s g m c).1 j).received = 0 ∧
          (aget (regroupBody chunkSteps subs s g m c).1 j).transmitted = 0 ∧
          (aget (regroupBody chunkSteps subs s g m c).1 j).done = 0 ∧
          (aget (regroupBody chunkSteps subs s g m c).1 j).base =
            roundUp (aget (regroupBody chunkSteps subs s g m c).1 j).step chunkSteps := by
        intro j hj
        by_cases hjs : j = s
        · subst hjs
          rw [hbC]
          exact ⟨rfl, rfl, rfl, rfl, rfl⟩
        · have hj4 : j < s := by omega
          by_cases hj3 : s - (regroupSelect subs s g m c).2 ≤ j
          · rw [hbB j hj3 hj4]
            exact hreset j hj4
          · rw [hbA j (by omega)]
            exact hreset j hj4
      have hgrp' : Grouped ((regroupBody chunkSteps subs s g m c).1.toList.take
          ((s + 1) - ((regroupSelect subs s g m c).2 + 1))) := by
        have hss1 : (s + 1) - ((regroupSelect subs s g m c).2 + 1) =
            s - (regroupSelect subs s g m c).2 := by omega
        rw [hss1, take_aget_eq _ subs _ hbsz (by omega) (fun j hj => hbA j hj)]
        rcases hdisj with hd | ⟨hpos, hd, hne, hcm⟩ | ⟨hzero, hd⟩
        · rw [hd]
          have hcl := grouped_close subs s g m c h3 h2 h4 hopen hgrp
          simpa using hcl
        · rw [hd]
          exact hgrp
        · rw [show s - (regroupSelect subs s g m c).2 = 0 from by omega, List.take_zero]
          exact Grouped.nil
      obtain ⟨hg1, hg2, hg3⟩ := ih (regroupBody chunkSteps subs s g m c).1 (s + 1)
        ((regroupSelect subs s g m c).2 + 1)
        (aget (regroupSelect subs s g m c).1 s).maxRecvs
        (aget (regroupSelect subs s g m c).1 s).comm
        (by omega) (by omega) (by omega) hm' hM' hC' hopen' hreset' hgrp'
      refine ⟨hg1, hg2.trans hkp, ?_⟩
      intro j hj
      exact hg3 j (by omega)
    · simp only [regroupLoop]
      rw [if_neg hs]
      have hse : s = subs.size := by omega
      refine ⟨?_, List.Perm.refl _, fun j hj => hreset j (by omega)⟩
      have hcl := grouped_close subs s g m c h3 h2 h4 hopen hgrp
      have hlen : subs.toList.length = subs.size := Array.length_toList
      rw [hse, ← hlen, List.take_length] at hcl
      exact hcl

/-- The whole `Ready`-entry regrouping, for every sub array: the result
is a concatenation of consecutive same-recvComm groups, each bounded by
`maxRecvs` and stamped with its size; the reorder is in place (the
`rkey` multiset is preserved); and every sub ends with its cursors
reset and `base` rounded up from its own `step`. The two hypotheses
record that `maxRecvs` comes from the properties of the net
communicator behind `recvComm` (net.cc line 459: `resources->maxRecvs
= props.maxRecvs`), so it is at least 1 and equal across subs sharing a
`recvComm`. -/
theorem regroup_grouped (chunkSteps : Nat) (subs : Array RSub)
    (hM : ∀ x ∈ subs.toList, 1 ≤ x.maxRecvs)
    (hC : ∀ x ∈ subs.toList, ∀ y ∈ subs.toList, x.comm = y.comm → x.maxRecvs = y.maxRecvs) :
    Grouped (regroup chunkSteps subs).toList ∧
    ((regroup chunkSteps subs).toList.map rkey).Perm (subs.toList.map rkey) ∧
    (∀ sub ∈ (regroup chunkSteps subs).toList,
      sub.posted = 0 ∧ sub.received = 0 ∧ sub.transmitted = 0 ∧ sub.done = 0 ∧
      sub.base = roundUp sub.step chunkSteps) := by
  have hmemi : ∀ j, j < subs.size → aget subs j ∈ subs.toList := by
    intro j hj
    rw [aget_eq _ _ hj, ← Array.getElem_toList hj]
    exact List.getElem_mem (by rw [Array.length_toList]; exact hj)
  have hMi : ∀ j, j < subs.size → 1 ≤ (aget subs j).maxRecvs :=
    fun j hj => hM _ (hmemi j hj)
  have hCi : ∀ j k, j < subs.size → k < subs.size →
      (aget subs j).comm = (aget subs k).comm →
      (aget subs j).maxRecvs = (aget subs k).maxRecvs :=
    fun j k hj hk hcm => hC _ (hmemi j hj) _ (hmemi k hk) hcm
  obtain ⟨hg1, hg2, hg3⟩ := regroupLoop_main chunkSteps subs.size subs 0 0 1 0
    (by omega) (by omega) (by omega) (by omega) hMi hCi
    (fun j hja hjb => absurd hjb (Nat.not_lt_zero j))
    (fun j hj => absurd hj (Nat.not_lt_zero j))
    (by rw [show (0 : Nat) - 0 = 0 from rfl, List.take_zero]; exact Grouped.nil)
  refine ⟨hg1, hg2, ?_⟩
  intro sub hmem
  obtain ⟨n, hn, heq⟩ := List.mem_iff_getElem.mp hmem
  have hn2 : n < (regroup chunkSteps subs).size := by
    rw [← Array.length_toList]
    exact hn
  have hn3 : n < subs.size := by
    have hsz : (regroup chunkSteps subs).size = subs.size :=
      regroupLoop_size chunkSteps subs.size subs 0 0 1 0
    omega
  rw [← heq, Array.getElem_toList hn2, ← aget_eq _ _ hn2]
  exact hg3 n hn3

/-- **C4.** On entry to `Ready`, `recvProxyProgress` reorders the subs
in place so that subs sharing the same fabric `recvComm` become
consecutive groups, each group bounded in size by `maxRecvs`, with
every member's `groupSize` set to the group's common size — stated for
every op: the reordered sub list is a concatenation of same-recvComm
groups whose stamped `groupSize` equals the group length, each length
within every member's `maxRecvs`, the multiset of fields the loop never
writes is preserved, and every cursor is reset (with `base` rounded up
from the sub's own `step`). The hypotheses record that `maxRecvs` is a
property of the net communicator behind the `recvComm` (at least 1,
equal across subs sharing a comm). In particular, for the 3-sub
scenario where subs 0 and 2 share recvComm A (`maxRecvs = 2`) and sub 1
uses comm B, the resulting order is (0, 2, 1) with groupSizes
(2, 2, 1). -/
theorem c4_recv_grouping :
    (∀ (chunkSteps : Nat) (subs : Array RSub),
      (∀ x ∈ subs.toList, 1 ≤ x.maxRecvs) →
      (∀ x ∈ subs.toList, ∀ y ∈ subs.toList,
        x.comm = y.comm → x.maxRecvs = y.maxRecvs) →
      Grouped (regroup chunkSteps subs).toList ∧
      ((regroup chunkSteps subs).toList.map rkey).Perm (subs.toList.map rkey) ∧
      (∀ sub ∈ (regroup chunkSteps subs).toList,
        sub.posted = 0 ∧ sub.received = 0 ∧ sub.transmitted = 0 ∧ sub.done = 0 ∧
        sub.base = roundUp sub.step chunkSteps)) ∧
    (regroup 2 c4Subs).toList.map (fun sub => sub.channelId) = [0, 2, 1] ∧
    (regroup 2 c4Subs).toList.map (fun sub => sub.groupSize) = [2, 2, 1] ∧
    (regroup 2 c4Subs).toList.map (fun sub => sub.comm) = [10, 10, 20] :=
  ⟨regroup_grouped, by decide, by decide, by decide⟩

/-- **C4, witness.** The universal grouping statement applied to the
concrete scenario S4: its hypotheses hold and the grouped shape and
in-place permutation follow. -/
theorem c4_recv_grouping_witness :
    Grouped (regroup 2 c4Subs).toList ∧
    ((regroup 2 c4Subs).toList.map rkey).Perm (c4Subs.toList.map rkey) :=
  ⟨(c4_recv_grouping.1 2 c4Subs (by decide) (by decide)).1,
   (c4_recv_grouping.1 2 c4Subs (by decide) (by decide)).2.1⟩

end NcclNet
